import Mathlib

/-!
Shallow embedding of `src/HuffmanEncoding.cpp` (a Huffman file
compressor/decompressor built on the Stanford C++ library).

Modelling conventions, all fixed by the source:

* `ext_char` is a C++ `int`; we embed it as `Int`.  `char` values are
  modelled as byte values `0..255` (the unsigned-`char` reading); the
  conversions `char(ch)` and `ostream::put` therefore become `· % 256`
  (`Int.emod`, which lands in `[0, 256)`).
* `Map<K, V>` (Stanford) is a balanced BST: unique keys, iteration in
  ascending key order.  Frequency tables (`Map<ext_char, int>`) are
  embedded as association lists kept sorted by key (`mput` inserts in
  order, overwriting equal keys).  The two code maps
  (`Map<ext_char, string>` and `Map<string, ext_char>`) are never
  iterated, only `put`/`get`/`containsKey` are used, so they are embedded
  as association lists with in-place overwrite (`aput`/`aget`), which has
  the same lookup semantics.  `Map::get` of a missing key returns a
  default-constructed value, hence the `Option.getD` defaults.
* `PriorityQueue` (Stanford) dequeues by ascending priority; ties are
  broken by an implementation-defined but per-run consistent policy,
  embedded here as FIFO insertion order.
* The bit sink/source collaborator is out of scope per the spec: the
  payload is the list of bits written, in order.  `readBit` on an
  exhausted source never yields a `'0'`/`'1'` character, so a codeword
  can never be completed after exhaustion and the decode loop never
  exits; the embedding of the loop therefore returns `none` when the
  bit list is exhausted.
* `istream` byte reads are embedded by `ByteStream`: a remaining byte
  list plus a `failed` flag.  `get()` at end of stream yields `-1` and
  sets the fail state, and all reads on a failed stream fail.  For
  `operator>>` into an `int`, C++ distinguishes two failure modes: when
  the sentry succeeds (a non-whitespace character is available) but
  `num_get` cannot convert, the value `0` is stored (C++11); when the
  sentry itself fails (stream already failed, or end of data reached
  while skipping whitespace), the target variable is left unmodified.
  The embedding therefore passes the target variable's current content
  into `readInt` and returns it unchanged on the sentry-false paths.
  The locals `numValues` and `frequency` of `readFileHeader` are
  declared uninitialized in the source, so their indeterminate contents
  on such paths are modelled by an explicit `junk` parameter (a single
  value standing for all of them); the theorems below are quantified
  over it, or take paths on which it is never consulted.
-/

/-- `a` is an initial segment of `b` (on raw character lists). -/
def leadsB : List Char → List Char → Bool
  | [], _ => true
  | _ :: _, [] => false
  | a :: as, b :: bs => a = b && leadsB as bs

/-- `s` is an initial segment of the codeword string `t`. -/
def strLeads (s t : String) : Bool := leadsB s.data t.data

/-- Association-list `put` with in-place overwrite (embeds `Map::put` /
`Map::operator[]` for the maps whose iteration order is never used). -/
def aput {K V : Type} [DecidableEq K] : List (K × V) → K → V → List (K × V)
  | [], k, v => [(k, v)]
  | (k', v') :: rest, k, v =>
    if k = k' then (k, v) :: rest else (k', v') :: aput rest k v

/-- Association-list lookup (embeds `Map::get` / `Map::containsKey`). -/
def aget {K V : Type} [DecidableEq K] : List (K × V) → K → Option V
  | [], _ => none
  | (k', v') :: rest, k => if k = k' then some v' else aget rest k

/-- Sorted-insert `put` for `Map<ext_char, int>`: the Stanford `Map` is a
BST, so entries are kept in ascending key order and an equal key is
overwritten. -/
def mput : List (Int × Int) → Int → Int → List (Int × Int)
  | [], k, v => [(k, v)]
  | (k', v') :: rest, k, v =>
    if k < k' then (k, v) :: (k', v') :: rest
    else if k = k' then (k, v) :: rest
    else (k', v') :: mput rest k v

/-- `Map::containsKey`. -/
def containsKey {K V : Type} [DecidableEq K] (l : List (K × V)) (k : K) : Bool :=
  (aget l k).isSome

/-- The representation invariant of the Stanford `Map<ext_char, int>`:
keys strictly ascending (hence unique). -/
def SortedKeys (l : List (Int × Int)) : Prop :=
  l.Pairwise (fun a b => a.1 < b.1)

/-- Decimal digit bytes of a natural number, big-endian, with fuel
(structural recursion so that the kernel can evaluate it). -/
def natBytesAux : Nat → Nat → List Int
  | 0, _ => []
  | fuel + 1, n =>
    if n < 10 then [((48 + n : Nat) : Int)]
    else natBytesAux fuel (n / 10) ++ [((48 + n % 10 : Nat) : Int)]

/-- Decimal digit bytes of a natural number (what `operator<<` prints). -/
def natBytes (n : Nat) : List Int := natBytesAux (n + 1) n

/-- Bytes printed by `operator<<` for a C++ `int`. -/
def intBytes (n : Int) : List Int :=
  if n < 0 then 45 :: natBytes (-n).toNat else natBytes n.toNat

/-- The decimal string produced by the Stanford `integerToString`
(used in the decode loop as `integerToString(bit)`). -/
def natStr (n : Nat) : String := ⟨(natBytes n).map (fun b => Char.ofNat b.toNat)⟩

/-- Stanford `integerToString` on a C++ `int`. -/
def integerToString (n : Int) : String :=
  if n < 0 then "-" ++ natStr (-n).toNat else natStr n.toNat

/-- Is this byte an ASCII decimal digit? -/
def isDigitByte (b : Int) : Bool := 48 ≤ b && b ≤ 57

/-- Is this byte whitespace (the characters `istream` skips)? -/
def isWsByte (b : Int) : Bool :=
  b = 32 || b = 9 || b = 10 || b = 11 || b = 12 || b = 13

/-- Greedily consume leading digit bytes, accumulating their value. -/
def parseDigitsLoop : List Int → Nat → Nat × List Int
  | [], acc => (acc, [])
  | b :: rest, acc =>
    if isDigitByte b then parseDigitsLoop rest (acc * 10 + (b - 48).toNat)
    else (acc, b :: rest)

/-- Parse a nonempty run of digit bytes; `none` if the first byte is not
a digit (which puts the stream into the fail state). -/
def parseDigits (l : List Int) : Option (Nat × List Int) :=
  match l with
  | [] => none
  | b :: _ => if isDigitByte b then some (parseDigitsLoop l 0) else none

/-- Drop leading whitespace bytes (the skip performed by `operator>>`). -/
def skipWsData : List Int → List Int
  | [] => []
  | b :: rest => if isWsByte b then skipWsData rest else b :: rest

/-- State of an `istream`/`ibstream` byte source: remaining bytes plus
the stream fail state. -/
structure ByteStream where
  data : List Int
  failed : Bool
deriving DecidableEq, Repr

/-- `istream::get()`: one raw byte, or `-1` (EOF) when exhausted or
already failed; reading past the end sets the fail state. -/
def bsGet (s : ByteStream) : Int × ByteStream :=
  if s.failed then (-1, s)
  else
    match s.data with
    | [] => (-1, { s with failed := true })
    | b :: rest => (b, { s with data := rest })

/-- `istream::operator>>` into an `int` whose current content is `val`:
skip whitespace, then read an optional sign and a nonempty digit run.
If the sentry fails (stream already failed, or the data runs out while
skipping whitespace) the target is left unmodified (`val`) and the
stream enters the fail state; if the sentry succeeds but conversion
fails, `num_get` stores `0` (C++11) and the stream enters the fail
state. -/
def readInt (val : Int) (s : ByteStream) : Int × ByteStream :=
  if s.failed then (val, s)
  else
    match skipWsData s.data with
    | [] => (val, { s with data := [], failed := true })
    | b :: rest =>
      if b = 45 then
        match parseDigits rest with
        | none => (0, { s with data := b :: rest, failed := true })
        | some (n, rest') => (-(Int.ofNat n), { s with data := rest' })
      else
        match parseDigits (b :: rest) with
        | none => (0, { s with data := b :: rest, failed := true })
        | some (n, rest') => (Int.ofNat n, { s with data := rest' })

/-- The end-of-stream sentinel symbol. -/
def PSEUDO_EOF : Int := 256

/-- The internal-node marker symbol. -/
def NOT_A_CHAR : Int := 257

/-- Huffman tree node.  The C++ `Node` is a struct with a `character`,
a `weight` and two child pointers; `buildEncodingTree` only ever creates
leaves (both children `NULL`, `character` a table key) and internal
nodes (both children non-`NULL`, `character = NOT_A_CHAR`, line 67 of
the source), which is exactly this inductive. -/
inductive Node where
  | mkLeaf (character : Int) (weight : Int)
  | mkInt (weight : Int) (zero : Node) (one : Node)
deriving DecidableEq, Repr

/-- `node->weight`. -/
def Node.weight : Node → Int
  | .mkLeaf _ w => w
  | .mkInt w _ _ => w

/-- `node->character` (`NOT_A_CHAR` on internal nodes, as set at
construction). -/
def Node.character : Node → Int
  | .mkLeaf c _ => c
  | .mkInt _ _ _ => NOT_A_CHAR

/-- `getFrequencyTable`: count each byte of the input, then force the
sentinel's count to 1. -/
def getFrequencyTable (file : List Int) : List (Int × Int) :=
  let charCount := file.foldl
    (fun charCount tmpChar =>
      let charCount :=
        if containsKey charCount tmpChar then charCount
        else mput charCount tmpChar 0
      mput charCount tmpChar ((aget charCount tmpChar).getD 0 + 1))
    []
  mput charCount PSEUDO_EOF 1

/-- `PriorityQueue::enqueue`: insert by ascending priority, FIFO among
equal priorities. -/
def pqEnqueue : List (Node × Int) → Node → Int → List (Node × Int)
  | [], n, p => [(n, p)]
  | (m, q) :: rest, n, p =>
    if q ≤ p then (m, q) :: pqEnqueue rest n p
    else (n, p) :: (m, q) :: rest

/-- The merge loop of `buildEncodingTree`: while more than one node
remains, dequeue the two lightest (`zero` first, then `one`), enqueue
their parent; `none` embeds the error of dequeuing an empty queue.  Each
iteration shrinks the queue by one, so the loop is written structurally
on a fuel bounded below by the queue length (the caller passes the
length itself, which always suffices). -/
def mergeLoop : Nat → List (Node × Int) → Option Node
  | _, [] => none
  | _, [(n, _)] => some n
  | 0, _ :: _ :: _ => none
  | fuel + 1, (zeroNode, _) :: (oneNode, _) :: rest =>
    mergeLoop fuel
      (pqEnqueue rest
        (Node.mkInt (zeroNode.weight + oneNode.weight) zeroNode oneNode)
        (zeroNode.weight + oneNode.weight))

/-- `buildEncodingTree`: one leaf per table entry (weight
`frequencies.get(ch)`), enqueued in iteration order, then merged. -/
def buildEncodingTree (frequencies : List (Int × Int)) : Option Node :=
  mergeLoop
    (frequencies.foldl
      (fun pq e =>
        pqEnqueue pq (Node.mkLeaf e.1 ((aget frequencies e.1).getD 0))
          ((aget frequencies e.1).getD 0))
      []).length
    (frequencies.foldl
      (fun pq e =>
        pqEnqueue pq (Node.mkLeaf e.1 ((aget frequencies e.1).getD 0))
          ((aget frequencies e.1).getD 0))
      [])

/-- `getEncodedMap`: depth-first walk recording `character ↦ code` at
every node whose character is not `NOT_A_CHAR` (i.e. at leaves). -/
def getEncodedMap : Node → List (Int × String) → String → List (Int × String)
  | .mkLeaf c _, mp, code => if c ≠ NOT_A_CHAR then aput mp c code else mp
  | .mkInt _ zero one, mp, code =>
    getEncodedMap one (getEncodedMap zero mp (code ++ "0")) (code ++ "1")

/-- `getDecodedMap`: the symmetric walk recording `code ↦ character`. -/
def getDecodedMap : Node → List (String × Int) → String → List (String × Int)
  | .mkLeaf c _, mp, code => if c ≠ NOT_A_CHAR then aput mp code c else mp
  | .mkInt _ zero one, mp, code =>
    getDecodedMap one (getDecodedMap zero mp (code ++ "0")) (code ++ "1")

/-- The bits written for one codeword: `code[i] - '0'` for each i. -/
def strBits (code : String) : List Int :=
  code.data.map (fun c => (c.toNat : Int) - 48)

/-- `encodeFile`: for each input byte emit its codeword's bits in order,
then emit the sentinel's codeword once. -/
def encodeFile (infile : List Int) (encodingTree : Node) : List Int :=
  let encodedChars := getEncodedMap encodingTree [] ""
  let bits := infile.foldl
    (fun acc tmpChar => acc ++ strBits ((aget encodedChars tmpChar).getD "")) []
  bits ++ strBits ((aget encodedChars PSEUDO_EOF).getD "")

/-- The `while(true)` loop of `decodeFile`: read a bit, append
`integerToString(bit)` to `currCode`, and when `currCode` is a key of
the decode map either stop (sentinel) or emit the byte and reset.  On
success it returns the emitted bytes and the unread bits.  When the bit
source is exhausted the real loop keeps reading a non-bit value forever
and can never complete a codeword, so the embedding returns `none`. -/
def decodeLoop (m : List (String × Int)) :
    List Int → String → List Int → Option (List Int × List Int)
  | [], _, _ => none
  | bit :: rest, currCode, out =>
    let currCode := currCode ++ integerToString bit
    match aget m currCode with
    | some sym =>
      if sym = PSEUDO_EOF then some (out, rest)
      else decodeLoop m rest "" (out ++ [sym % 256])
    | none => decodeLoop m rest currCode out

/-- `decodeFile`. -/
def decodeFile (infile : List Int) (encodingTree : Node) :
    Option (List Int × List Int) :=
  let decodedBits := getDecodedMap encodingTree [] ""
  decodeLoop decodedBits infile "" []

/-- The `foreach` of `writeFileHeader`: per non-sentinel entry, the raw
symbol byte (`char(ch)`), the decimal frequency, and a space. -/
def headerEntries (frequencies : List (Int × Int)) : List Int :=
  frequencies.foldl
    (fun acc e =>
      if e.1 = PSEUDO_EOF then acc
      else acc ++ [e.1 % 256] ++ intBytes e.2 ++ [32])
    []

/-- `writeFileHeader`: `error(...)` (embedded as `none`) when the
sentinel is missing; otherwise the count of non-sentinel entries, a
space, and the entry encodings in iteration order. -/
def writeFileHeader (frequencies : List (Int × Int)) : Option (List Int) :=
  if ¬ containsKey frequencies PSEUDO_EOF then none
  else some (natBytes (frequencies.length - 1) ++ [32] ++ headerEntries frequencies)

/-- The `for` loop of `readFileHeader`: `numValues` times, read a raw
symbol byte (`ch`), extract a frequency, skip one byte, and store the
pair (the three stream reads of the loop body, written with explicit
pair projections).  The loop body declares `int frequency;`
uninitialized each iteration; its indeterminate content is the `junk`
parameter, returned unchanged by `readInt` whenever the extraction
sentry fails. -/
def readPairsLoop (junk : Int) : Nat → ByteStream → List (Int × Int) → List (Int × Int)
  | 0, _, t => t
  | n + 1, s, t =>
    readPairsLoop junk n (bsGet (readInt junk (bsGet s).2).2).2
      (mput t (bsGet s).1 (readInt junk (bsGet s).2).1)

/-- `readFileHeader`: extract the count (`operator>>` into the
uninitialized `int numValues`, whose indeterminate content is `junk`),
skip one byte (`get`), read that many pairs, then add the sentinel with
count 1.  Note the source has no error path: it always returns a
table. -/
def readFileHeader (junk : Int) (bytes : List Int) : List (Int × Int) :=
  mput
    (readPairsLoop junk (readInt junk ⟨bytes, false⟩).1.toNat
      (bsGet (readInt junk ⟨bytes, false⟩).2).2 [])
    PSEUDO_EOF 1

/-- `compress`: count frequencies, build the tree, write the header,
rewind, encode.  The result is the header bytes and the payload bits. -/
def compress (infile : List Int) : Option (List Int × List Int) :=
  let charCount := getFrequencyTable infile
  match buildEncodingTree charCount with
  | none => none
  | some root =>
    match writeFileHeader charCount with
    | none => none
    | some header => some (header, encodeFile infile root)

/-- `decompress`: read the header, rebuild the tree, decode the payload
bits (`junk` as in `readFileHeader`). -/
def decompress (junk : Int) (header : List Int) (bits : List Int) :
    Option (List Int) :=
  let charCount := readFileHeader junk header
  match buildEncodingTree charCount with
  | none => none
  | some root =>
    match decodeFile bits root with
    | none => none
    | some (out, _) => some out

/-- Traversal record of `getEncodedMap`/`getDecodedMap`: the
`(character, code)` pairs recorded, in visit order. -/
def codesOf : Node → String → List (Int × String)
  | .mkLeaf c _, code => if c ≠ NOT_A_CHAR then [(c, code)] else []
  | .mkInt _ zero one, code =>
    codesOf zero (code ++ "0") ++ codesOf one (code ++ "1")

/-- Characters at the leaves, left to right. -/
def leafChars : Node → List Int
  | .mkLeaf c _ => [c]
  | .mkInt _ zero one => leafChars zero ++ leafChars one

/-- Number of leaves of a tree. -/
def numLeaves : Node → Nat
  | .mkLeaf _ _ => 1
  | .mkInt _ zero one => numLeaves zero + numLeaves one

/-- All leaf characters of the nodes in a priority queue. -/
def pqChars : List (Node × Int) → List Int
  | [] => []
  | e :: rest => leafChars e.1 ++ pqChars rest

/-- The weight invariant: every internal node weighs the sum of its
children, recursively. -/
def weightOk : Node → Bool
  | .mkLeaf _ _ => true
  | .mkInt w zero one =>
    w = zero.weight + one.weight && weightOk zero && weightOk one

/-! ### Association-list map lemmas -/

theorem aget_aput {K V : Type} [DecidableEq K] (m : List (K × V)) (k : K) (v : V) :
    aget (aput m k v) k = some v := by
  induction m with
  | nil => simp [aput, aget]
  | cons e rest ih =>
    obtain ⟨k', v'⟩ := e
    by_cases h : k = k' <;> simp [aput, aget, h, ih]

theorem aget_aput_ne {K V : Type} [DecidableEq K] (m : List (K × V)) (k k' : K) (v : V)
    (h : k' ≠ k) : aget (aput m k v) k' = aget m k' := by
  induction m with
  | nil => simp [aput, aget, h]
  | cons e rest ih =>
    obtain ⟨k1, v1⟩ := e
    by_cases h1 : k = k1
    · subst h1; simp [aput, aget, h]
    · by_cases h2 : k' = k1 <;> simp [aput, aget, h1, h2, ih]

theorem mem_of_aget {K V : Type} [DecidableEq K] {m : List (K × V)} {k : K} {v : V}
    (h : aget m k = some v) : (k, v) ∈ m := by
  induction m with
  | nil => simp [aget] at h
  | cons e rest ih =>
    obtain ⟨k1, v1⟩ := e
    by_cases h1 : k = k1
    · subst h1
      simp [aget] at h
      simp [h]
    · simp [aget, h1] at h
      exact List.mem_cons_of_mem _ (ih h)

theorem aget_eq_none {K V : Type} [DecidableEq K] {m : List (K × V)} {k : K}
    (h : k ∉ m.map Prod.fst) : aget m k = none := by
  induction m with
  | nil => rfl
  | cons e rest ih =>
    obtain ⟨k1, v1⟩ := e
    simp only [List.map_cons, List.mem_cons, not_or] at h
    simp [aget, h.1, ih h.2]

theorem aget_foldl_aput_not_mem {K V : Type} [DecidableEq K]
    (l : List (K × V)) (mp : List (K × V)) (s : K)
    (h : s ∉ l.map Prod.fst) :
    aget (l.foldl (fun m e => aput m e.1 e.2) mp) s = aget mp s := by
  induction l generalizing mp with
  | nil => rfl
  | cons e rest ih =>
    simp only [List.map_cons, List.mem_cons, not_or] at h
    simp only [List.foldl_cons]
    rw [ih _ h.2, aget_aput_ne _ _ _ _ h.1]

theorem aget_foldl_aput_mem {K V : Type} [DecidableEq K]
    {l : List (K × V)} {mp : List (K × V)} {s : K} {c : V}
    (h : aget (l.foldl (fun m e => aput m e.1 e.2) mp) s = some c) :
    (s, c) ∈ l ∨ aget mp s = some c := by
  induction l generalizing mp with
  | nil => exact Or.inr h
  | cons e rest ih =>
    simp only [List.foldl_cons] at h
    rcases ih h with h1 | h1
    · exact Or.inl (List.mem_cons_of_mem _ h1)
    · by_cases h2 : s = e.1
      · subst h2
        rw [aget_aput] at h1
        obtain rfl : c = e.2 := by injection h1.symm
        exact Or.inl (by simp)
      · rw [aget_aput_ne _ _ _ _ h2] at h1
        exact Or.inr h1

theorem aget_foldl_aput_of_mem {K V : Type} [DecidableEq K]
    {l : List (K × V)} (mp : List (K × V)) {s : K} {c : V}
    (hnd : (l.map Prod.fst).Nodup) (hm : (s, c) ∈ l) :
    aget (l.foldl (fun m e => aput m e.1 e.2) mp) s = some c := by
  induction l generalizing mp with
  | nil => simp at hm
  | cons e rest ih =>
    simp only [List.map_cons, List.nodup_cons] at hnd
    simp only [List.foldl_cons]
    rcases List.mem_cons.mp hm with h1 | h1
    · subst h1
      rw [aget_foldl_aput_not_mem _ _ _ hnd.1, aget_aput]
    · exact ih _ hnd.2 h1

theorem aput_length_of_not_mem {K V : Type} [DecidableEq K]
    (m : List (K × V)) (k : K) (v : V) (h : k ∉ m.map Prod.fst) :
    (aput m k v).length = m.length + 1 := by
  induction m with
  | nil => rfl
  | cons e rest ih =>
    simp only [List.map_cons, List.mem_cons, not_or] at h
    simp only [aput]
    rw [if_neg h.1]
    simp only [List.length_cons]
    rw [ih (by simpa using h.2)]

theorem mem_map_fst_aput {K V : Type} [DecidableEq K]
    {m : List (K × V)} {k k' : K} {v : V}
    (h : k' ∈ (aput m k v).map Prod.fst) : k' = k ∨ k' ∈ m.map Prod.fst := by
  induction m with
  | nil => simpa [aput] using h
  | cons e rest ih =>
    by_cases h1 : k = e.1
    · rw [show aput (e :: rest) k v = (k, v) :: rest by simp [aput, h1]] at h
      simp only [List.map_cons, List.mem_cons] at h
      rcases h with h | h
      · exact Or.inl h
      · exact Or.inr (by simp only [List.map_cons, List.mem_cons]; exact Or.inr h)
    · rw [show aput (e :: rest) k v = e :: aput rest k v by simp [aput, h1]] at h
      simp only [List.map_cons, List.mem_cons] at h
      rcases h with h | h
      · exact Or.inr (by simp only [List.map_cons, List.mem_cons]; exact Or.inl h)
      · rcases ih h with h2 | h2
        · exact Or.inl h2
        · exact Or.inr (by simp only [List.map_cons, List.mem_cons]; exact Or.inr h2)

theorem foldl_aput_length {K V : Type} [DecidableEq K]
    (l : List (K × V)) (mp : List (K × V))
    (hnd : (l.map Prod.fst).Nodup)
    (hdisj : ∀ k ∈ l.map Prod.fst, k ∉ mp.map Prod.fst) :
    (l.foldl (fun m e => aput m e.1 e.2) mp).length = mp.length + l.length := by
  induction l generalizing mp with
  | nil => rfl
  | cons e rest ih =>
    simp only [List.map_cons, List.nodup_cons] at hnd
    simp only [List.foldl_cons]
    have hdisj2 : ∀ k ∈ rest.map Prod.fst, k ∉ (aput mp e.1 e.2).map Prod.fst := by
      intro k hk hmem
      rcases mem_map_fst_aput hmem with h2 | h2
      · exact hnd.1 (h2 ▸ hk)
      · exact hdisj k (by simp only [List.map_cons, List.mem_cons]; exact Or.inr hk) h2
    rw [ih (aput mp e.1 e.2) hnd.2 hdisj2,
      aput_length_of_not_mem _ _ _ (hdisj e.1 (by simp))]
    simp only [List.length_cons]
    omega

/-! ### Sorted-map (`mput`) lemmas -/

theorem aget_mput_self (t : List (Int × Int)) (k v : Int) :
    aget (mput t k v) k = some v := by
  induction t with
  | nil => simp [mput, aget]
  | cons e rest ih =>
    obtain ⟨k1, v1⟩ := e
    by_cases h1 : k < k1
    · simp [mput, aget, h1]
    · by_cases h2 : k = k1 <;> simp [mput, aget, h1, h2, ih]

theorem aget_mput_ne (t : List (Int × Int)) (k k' v : Int) (h : k' ≠ k) :
    aget (mput t k v) k' = aget t k' := by
  induction t with
  | nil => simp [mput, aget, h]
  | cons e rest ih =>
    obtain ⟨k1, v1⟩ := e
    by_cases h1 : k < k1
    · simp [mput, aget, h1, h]
    · by_cases h2 : k = k1
      · subst h2
        simp [mput, aget, h1, h]
      · by_cases h3 : k' = k1 <;> simp [mput, aget, h1, h2, h3, ih]

theorem mem_mput {t : List (Int × Int)} {k v : Int} {e : Int × Int}
    (h : e ∈ mput t k v) : e = (k, v) ∨ e ∈ t := by
  induction t with
  | nil => simpa [mput] using h
  | cons e1 rest ih =>
    obtain ⟨k1, v1⟩ := e1
    by_cases h1 : k < k1
    · simp only [mput, if_pos h1] at h
      rcases List.mem_cons.mp h with h2 | h2
      · exact Or.inl h2
      · exact Or.inr h2
    · by_cases h2 : k = k1
      · simp only [mput, if_neg h1, if_pos h2] at h
        rcases List.mem_cons.mp h with h3 | h3
        · exact Or.inl h3
        · exact Or.inr (List.mem_cons_of_mem _ h3)
      · simp only [mput, if_neg h1, if_neg h2] at h
        rcases List.mem_cons.mp h with h3 | h3
        · exact Or.inr (h3 ▸ List.mem_cons_self _ _)
        · rcases ih h3 with h4 | h4
          · exact Or.inl h4
          · exact Or.inr (List.mem_cons_of_mem _ h4)

theorem SortedKeys_mput {t : List (Int × Int)} (k v : Int) (h : SortedKeys t) :
    SortedKeys (mput t k v) := by
  induction t with
  | nil => simp [mput, SortedKeys]
  | cons e rest ih =>
    obtain ⟨k1, v1⟩ := e
    rw [SortedKeys, List.pairwise_cons] at h
    by_cases h1 : k < k1
    · simp only [mput, if_pos h1]
      rw [SortedKeys, List.pairwise_cons]
      refine ⟨?_, List.Pairwise.cons h.1 h.2⟩
      intro e2 he2
      rcases List.mem_cons.mp he2 with h2 | h2
      · subst h2; exact h1
      · exact lt_trans h1 (h.1 e2 h2)
    · by_cases h2 : k = k1
      · subst h2
        have hput : mput ((k, v1) :: rest) k v = (k, v) :: rest := by
          simp [mput, h1]
        rw [hput, SortedKeys, List.pairwise_cons]
        exact ⟨h.1, h.2⟩
      · simp only [mput, if_neg h1, if_neg h2]
        rw [SortedKeys, List.pairwise_cons]
        refine ⟨?_, ih h.2⟩
        intro e2 he2
        rcases mem_mput he2 with h3 | h3
        · subst h3; omega
        · exact h.1 e2 h3

theorem mput_append_of_lt {t : List (Int × Int)} {k : Int} (v : Int)
    (h : ∀ e ∈ t, e.1 < k) : mput t k v = t ++ [(k, v)] := by
  induction t with
  | nil => rfl
  | cons e rest ih =>
    obtain ⟨k1, v1⟩ := e
    have hk1 : k1 < k := h (k1, v1) (List.mem_cons_self _ _)
    simp only [mput, if_neg (by omega : ¬ k < k1), if_neg (by omega : ¬ k = k1)]
    rw [ih (fun e he => h e (List.mem_cons_of_mem _ he))]
    rfl

theorem foldl_mput_of_sorted (l : List (Int × Int)) :
    ∀ t : List (Int × Int), SortedKeys (t ++ l) →
    l.foldl (fun t e => mput t e.1 e.2) t = t ++ l := by
  induction l with
  | nil => intro t _; simp
  | cons e rest ih =>
    intro t hs
    obtain ⟨k, v⟩ := e
    have hlt : ∀ e2 ∈ t, e2.1 < k := by
      intro e2 he2
      have := (List.pairwise_append.mp hs).2.2 e2 he2 (k, v) (by simp)
      exact this
    simp only [List.foldl_cons]
    rw [mput_append_of_lt v hlt, ih (t ++ [(k, v)]) (by simpa using hs)]
    simp

/-! ### `getFrequencyTable` lemmas -/

theorem freq_step_aget (t : List (Int × Int)) (c b : Int) :
    aget ((fun charCount tmpChar =>
        let charCount :=
          if containsKey charCount tmpChar then charCount
          else mput charCount tmpChar 0
        mput charCount tmpChar ((aget charCount tmpChar).getD 0 + 1)) t c) b =
      if b = c then some ((aget t c).getD 0 + 1) else aget t b := by
  simp only []
  by_cases hc : containsKey t c
  · rw [if_pos hc]
    by_cases hb : b = c
    · subst hb; rw [aget_mput_self, if_pos rfl]
    · rw [aget_mput_ne _ _ _ _ hb, if_neg hb]
  · rw [if_neg hc]
    have hnone : aget t c = none := by
      cases h : aget t c with
      | none => rfl
      | some v => exact absurd (by simp [containsKey, h]) hc
    by_cases hb : b = c
    · subst hb
      rw [aget_mput_self, if_pos rfl, aget_mput_self, hnone]
      rfl
    · rw [aget_mput_ne _ _ _ _ hb, aget_mput_ne _ _ _ _ hb, if_neg hb]

theorem freq_fold_aget (input : List Int) :
    ∀ (t : List (Int × Int)) (b : Int),
    aget (input.foldl (fun charCount tmpChar =>
        let charCount :=
          if containsKey charCount tmpChar then charCount
          else mput charCount tmpChar 0
        mput charCount tmpChar ((aget charCount tmpChar).getD 0 + 1)) t) b =
      if input.count b = 0 then aget t b
      else some ((aget t b).getD 0 + (input.count b : Int)) := by
  induction input with
  | nil => intro t b; simp
  | cons c rest ih =>
    intro t b
    simp only [List.foldl_cons]
    rw [ih]
    by_cases hb : b = c
    · subst hb
      rw [List.count_cons_self]
      rw [freq_step_aget]
      rw [if_pos rfl]
      by_cases h0 : rest.count b = 0
      · rw [if_pos h0, if_neg (by omega)]
        simp [h0]
      · rw [if_neg h0, if_neg (by omega)]
        simp only [Option.getD_some]
        push_cast
        ring_nf
    · rw [List.count_cons_of_ne hb]
      rw [freq_step_aget, if_neg hb]

theorem getFrequencyTable_aget (input : List Int) (b : Int) :
    aget (getFrequencyTable input) b =
      if b = PSEUDO_EOF then some 1
      else if input.count b = 0 then none else some ((input.count b : Int)) := by
  rw [getFrequencyTable]
  by_cases hb : b = PSEUDO_EOF
  · subst hb
    simp only []
    rw [aget_mput_self]
    simp
  · simp only []
    rw [aget_mput_ne _ _ _ _ hb, if_neg hb, freq_fold_aget]
    by_cases h0 : input.count b = 0
    · rw [if_pos h0, if_pos h0]
      rfl
    · rw [if_neg h0, if_neg h0]
      simp [aget]

theorem SortedKeys_freq_fold (input : List Int) :
    ∀ t : List (Int × Int), SortedKeys t →
    SortedKeys (input.foldl (fun charCount tmpChar =>
        let charCount :=
          if containsKey charCount tmpChar then charCount
          else mput charCount tmpChar 0
        mput charCount tmpChar ((aget charCount tmpChar).getD 0 + 1)) t) := by
  induction input with
  | nil => intro t h; exact h
  | cons c rest ih =>
    intro t h
    simp only [List.foldl_cons]
    apply ih
    dsimp only
    by_cases hc : containsKey t c
    · rw [if_pos hc]; exact SortedKeys_mput _ _ h
    · rw [if_neg hc]; exact SortedKeys_mput _ _ (SortedKeys_mput _ _ h)

theorem SortedKeys_getFrequencyTable (input : List Int) :
    SortedKeys (getFrequencyTable input) := by
  rw [getFrequencyTable]
  exact SortedKeys_mput _ _ (SortedKeys_freq_fold input [] List.Pairwise.nil)

/-! ### Codeword-list lemmas -/

theorem leadsB_iff (a : List Char) : ∀ b, leadsB a b = true ↔ ∃ t, b = a ++ t := by
  induction a with
  | nil =>
    intro b
    simp [leadsB]
  | cons x as ih =>
    intro b
    cases b with
    | nil => simp [leadsB]
    | cons y bs =>
      simp only [leadsB, Bool.and_eq_true, decide_eq_true_eq, ih]
      constructor
      · rintro ⟨rfl, t, rfl⟩
        exact ⟨t, rfl⟩
      · rintro ⟨t, ht⟩
        injection ht with h1 h2
        exact ⟨h1.symm, t, h2⟩

theorem leadsB_false_of_diverge (pre : List Char) (x y : Char) (s1 s2 : List Char)
    (hxy : x ≠ y) : leadsB (pre ++ x :: s1) (pre ++ y :: s2) = false := by
  cases h : leadsB (pre ++ x :: s1) (pre ++ y :: s2) with
  | false => rfl
  | true =>
    rw [leadsB_iff] at h
    obtain ⟨t, ht⟩ := h
    rw [List.append_assoc] at ht
    have := List.append_cancel_left ht
    injection this with h1 _
    exact absurd h1.symm hxy

theorem getEncodedMap_eq_foldl (t : Node) :
    ∀ mp code, getEncodedMap t mp code =
      (codesOf t code).foldl (fun m e => aput m e.1 e.2) mp := by
  induction t with
  | mkLeaf c w =>
    intro mp code
    by_cases h : c ≠ NOT_A_CHAR <;>
      simp [getEncodedMap, codesOf, h]
  | mkInt w zero one ihz iho =>
    intro mp code
    rw [getEncodedMap, codesOf, List.foldl_append, ihz, iho]

theorem getDecodedMap_eq_foldl (t : Node) :
    ∀ mp code, getDecodedMap t mp code =
      ((codesOf t code).map Prod.swap).foldl (fun m e => aput m e.1 e.2) mp := by
  induction t with
  | mkLeaf c w =>
    intro mp code
    by_cases h : c ≠ NOT_A_CHAR <;>
      simp [getDecodedMap, codesOf, h, Prod.swap]
  | mkInt w zero one ihz iho =>
    intro mp code
    rw [getDecodedMap, codesOf, List.map_append, List.foldl_append, ihz, iho]

theorem codesOf_extend (t : Node) :
    ∀ code e, e ∈ codesOf t code → ∃ suf, e.2.data = code.data ++ suf := by
  induction t with
  | mkLeaf c w =>
    intro code e he
    by_cases h : c ≠ NOT_A_CHAR
    · simp only [codesOf, if_pos h, List.mem_singleton] at he
      subst he
      exact ⟨[], by simp⟩
    · simp [codesOf, h] at he
  | mkInt w zero one ihz iho =>
    intro code e he
    rw [codesOf] at he
    rcases List.mem_append.mp he with h1 | h1
    · obtain ⟨suf, hs⟩ := ihz _ e h1
      exact ⟨'0' :: suf, by rw [hs, String.data_append]; simp⟩
    · obtain ⟨suf, hs⟩ := iho _ e h1
      exact ⟨'1' :: suf, by rw [hs, String.data_append]; simp⟩

theorem codesOf_pairwise (t : Node) :
    ∀ code, (codesOf t code).Pairwise
      (fun e1 e2 => leadsB e1.2.data e2.2.data = false ∧
                    leadsB e2.2.data e1.2.data = false) := by
  induction t with
  | mkLeaf c w =>
    intro code
    by_cases h : c ≠ NOT_A_CHAR <;> simp [codesOf, h]
  | mkInt w zero one ihz iho =>
    intro code
    rw [codesOf, List.pairwise_append]
    refine ⟨ihz _, iho _, ?_⟩
    intro e1 h1 e2 h2
    obtain ⟨s1, hs1⟩ := codesOf_extend zero _ e1 h1
    obtain ⟨s2, hs2⟩ := codesOf_extend one _ e2 h2
    rw [String.data_append] at hs1 hs2
    have h01 : ("0" : String).data = ['0'] := rfl
    have h11 : ("1" : String).data = ['1'] := rfl
    rw [h01] at hs1
    rw [h11] at hs2
    constructor
    · rw [hs1, hs2]
      rw [show code.data ++ ['0'] ++ s1 = code.data ++ '0' :: s1 by simp,
          show code.data ++ ['1'] ++ s2 = code.data ++ '1' :: s2 by simp]
      exact leadsB_false_of_diverge _ _ _ _ _ (by decide)
    · rw [hs1, hs2]
      rw [show code.data ++ ['0'] ++ s1 = code.data ++ '0' :: s1 by simp,
          show code.data ++ ['1'] ++ s2 = code.data ++ '1' :: s2 by simp]
      exact leadsB_false_of_diverge _ _ _ _ _ (by decide)

theorem codesOf_map_fst (t : Node) :
    ∀ code, (codesOf t code).map Prod.fst =
      (leafChars t).filter (fun c => decide (c ≠ NOT_A_CHAR)) := by
  induction t with
  | mkLeaf c w =>
    intro code
    by_cases h : c ≠ NOT_A_CHAR <;> simp [codesOf, leafChars, h]
  | mkInt w zero one ihz iho =>
    intro code
    rw [codesOf, leafChars, List.map_append, List.filter_append, ihz, iho]

theorem codesOf_length (t : Node) :
    ∀ code, (∀ c ∈ leafChars t, c ≠ NOT_A_CHAR) →
    (codesOf t code).length = numLeaves t := by
  induction t with
  | mkLeaf c w =>
    intro code hall
    have : c ≠ NOT_A_CHAR := hall c (by simp [leafChars])
    simp [codesOf, numLeaves, this]
  | mkInt w zero one ihz iho =>
    intro code hall
    rw [leafChars] at hall
    rw [codesOf, numLeaves, List.length_append,
      ihz _ (fun c hc => hall c (List.mem_append.mpr (Or.inl hc))),
      iho _ (fun c hc => hall c (List.mem_append.mpr (Or.inr hc)))]

theorem codesOf_bitchars (t : Node) :
    ∀ code, (∀ c ∈ code.data, c = '0' ∨ c = '1') →
    ∀ e ∈ codesOf t code, ∀ c ∈ e.2.data, c = '0' ∨ c = '1' := by
  induction t with
  | mkLeaf ch w =>
    intro code hcode e he
    by_cases h : ch ≠ NOT_A_CHAR
    · simp only [codesOf, if_pos h, List.mem_singleton] at he
      subst he
      exact hcode
    · simp [codesOf, h] at he
  | mkInt w zero one ihz iho =>
    intro code hcode e he
    rw [codesOf] at he
    have h0 : ∀ c ∈ (code ++ "0").data, c = '0' ∨ c = '1' := by
      intro c hc
      rw [String.data_append] at hc
      rcases List.mem_append.mp hc with h1 | h1
      · exact hcode c h1
      · left
        simpa using h1
    have h1 : ∀ c ∈ (code ++ "1").data, c = '0' ∨ c = '1' := by
      intro c hc
      rw [String.data_append] at hc
      rcases List.mem_append.mp hc with h2 | h2
      · exact hcode c h2
      · right
        simpa using h2
    rcases List.mem_append.mp he with h2 | h2
    · exact ihz _ h0 e h2
    · exact iho _ h1 e h2
/-! ### Priority-queue and merge-loop lemmas -/

theorem pqEnqueue_length (pq : List (Node × Int)) (n : Node) (p : Int) :
    (pqEnqueue pq n p).length = pq.length + 1 := by
  induction pq with
  | nil => rfl
  | cons hd tl ih =>
    obtain ⟨m, q⟩ := hd
    simp only [pqEnqueue]
    split
    · simp [ih]
    · simp

theorem mem_pqEnqueue {pq : List (Node × Int)} {n : Node} {p : Int} {e : Node × Int}
    (h : e ∈ pqEnqueue pq n p) : e = (n, p) ∨ e ∈ pq := by
  induction pq with
  | nil => simpa [pqEnqueue] using h
  | cons hd tl ih =>
    obtain ⟨m, q⟩ := hd
    by_cases h1 : q ≤ p
    · simp only [pqEnqueue, if_pos h1] at h
      rcases List.mem_cons.mp h with h2 | h2
      · exact Or.inr (h2 ▸ List.mem_cons_self _ _)
      · rcases ih h2 with h3 | h3
        · exact Or.inl h3
        · exact Or.inr (List.mem_cons_of_mem _ h3)
    · simp only [pqEnqueue, if_neg h1] at h
      rcases List.mem_cons.mp h with h2 | h2
      · exact Or.inl h2
      · exact Or.inr h2

theorem pqChars_pqEnqueue (pq : List (Node × Int)) (n : Node) (p : Int) :
    List.Perm (pqChars (pqEnqueue pq n p)) (leafChars n ++ pqChars pq) := by
  induction pq with
  | nil => simp [pqEnqueue, pqChars]
  | cons hd tl ih =>
    obtain ⟨m, q⟩ := hd
    by_cases h1 : q ≤ p
    · rw [show pqEnqueue ((m, q) :: tl) n p = (m, q) :: pqEnqueue tl n p by
        simp [pqEnqueue, h1]]
      have step1 : List.Perm (pqChars ((m, q) :: pqEnqueue tl n p))
          (leafChars m ++ (leafChars n ++ pqChars tl)) := ih.append_left _
      refine step1.trans ?_
      simp only [pqChars, ← List.append_assoc]
      exact List.perm_append_comm.append_right _
    · rw [show pqEnqueue ((m, q) :: tl) n p = (n, p) :: (m, q) :: tl by
        simp [pqEnqueue, h1]]
      exact List.Perm.refl _

theorem pqEnqueue_ne_nil (pq : List (Node × Int)) (n : Node) (p : Int) :
    pqEnqueue pq n p ≠ [] := by
  intro h
  have := pqEnqueue_length pq n p
  rw [h] at this
  simp at this

theorem mergeLoop_some : ∀ (fuel : Nat) (pq : List (Node × Int)),
    pq.length ≤ fuel + 1 → pq ≠ [] → ∃ root, mergeLoop fuel pq = some root := by
  intro fuel
  induction fuel with
  | zero =>
    intro pq hlen hne
    match pq with
    | [] => exact absurd rfl hne
    | [(n, p)] => exact ⟨n, by rw [mergeLoop]⟩
    | (z, pz) :: (o, po) :: rest => simp at hlen
  | succ fuel ih =>
    intro pq hlen hne
    match pq with
    | [] => exact absurd rfl hne
    | [(n, p)] => exact ⟨n, by rw [mergeLoop]⟩
    | (z, pz) :: (o, po) :: rest =>
      have hlen2 : (pqEnqueue rest (Node.mkInt (z.weight + o.weight) z o)
          (z.weight + o.weight)).length ≤ fuel + 1 := by
        rw [pqEnqueue_length]
        simp only [List.length_cons] at hlen
        omega
      obtain ⟨root, hroot⟩ := ih _ hlen2 (pqEnqueue_ne_nil _ _ _)
      exact ⟨root, by rw [mergeLoop]; exact hroot⟩

theorem mergeLoop_perm : ∀ (fuel : Nat) (pq : List (Node × Int)) (root : Node),
    mergeLoop fuel pq = some root →
    List.Perm (leafChars root) (pqChars pq) := by
  intro fuel
  induction fuel with
  | zero =>
    intro pq root h
    match pq with
    | [] => simp [mergeLoop] at h
    | [(n, p)] =>
      rw [mergeLoop] at h
      injection h with h
      subst h
      simp [pqChars]
    | (z, pz) :: (o, po) :: rest => simp [mergeLoop] at h
  | succ fuel ih =>
    intro pq root h
    match pq with
    | [] => simp [mergeLoop] at h
    | [(n, p)] =>
      rw [mergeLoop] at h
      injection h with h
      subst h
      simp [pqChars]
    | (z, pz) :: (o, po) :: rest =>
      rw [mergeLoop] at h
      have hperm := ih _ root h
      refine hperm.trans ((pqChars_pqEnqueue _ _ _).trans ?_)
      rw [show leafChars (Node.mkInt (z.weight + o.weight) z o) =
        leafChars z ++ leafChars o from rfl]
      simp only [pqChars]
      rw [List.append_assoc]

theorem mergeLoop_weightOk : ∀ (fuel : Nat) (pq : List (Node × Int)) (root : Node),
    (∀ e ∈ pq, weightOk e.1 = true) →
    mergeLoop fuel pq = some root → weightOk root = true := by
  intro fuel
  induction fuel with
  | zero =>
    intro pq root hall h
    match pq with
    | [] => simp [mergeLoop] at h
    | [(n, p)] =>
      rw [mergeLoop] at h
      injection h with h
      subst h
      exact hall (n, p) (by simp)
    | (z, pz) :: (o, po) :: rest => simp [mergeLoop] at h
  | succ fuel ih =>
    intro pq root hall h
    match pq with
    | [] => simp [mergeLoop] at h
    | [(n, p)] =>
      rw [mergeLoop] at h
      injection h with h
      subst h
      exact hall (n, p) (by simp)
    | (z, pz) :: (o, po) :: rest =>
      rw [mergeLoop] at h
      refine ih _ root ?_ h
      intro e he
      rcases mem_pqEnqueue he with h1 | h1
      · subst h1
        have hz : weightOk z = true := hall (z, pz) (by simp)
        have ho : weightOk o = true := hall (o, po) (by simp)
        simp [weightOk, hz, ho]
      · exact hall e (List.mem_cons_of_mem _ (List.mem_cons_of_mem _ h1))

theorem mergeLoop_mkInt : ∀ (fuel : Nat) (pq : List (Node × Int)) (root : Node),
    2 ≤ pq.length → mergeLoop fuel pq = some root →
    ∃ w z o, root = Node.mkInt w z o := by
  intro fuel
  induction fuel with
  | zero =>
    intro pq root h2 h
    match pq with
    | [] => simp at h2
    | [(n, p)] => simp at h2
    | (z, pz) :: (o, po) :: rest => simp [mergeLoop] at h
  | succ fuel ih =>
    intro pq root h2 h
    match pq with
    | [] => simp at h2
    | [(n, p)] => simp at h2
    | (z, pz) :: (o, po) :: rest =>
      rw [mergeLoop] at h
      cases rest with
      | nil =>
        rw [show pqEnqueue [] (Node.mkInt (z.weight + o.weight) z o)
            (z.weight + o.weight) = [(Node.mkInt (z.weight + o.weight) z o,
            z.weight + o.weight)] from rfl, mergeLoop] at h
        injection h with h
        exact ⟨_, _, _, h.symm⟩
      | cons r rrest =>
        have hge : 2 ≤ (pqEnqueue (r :: rrest) (Node.mkInt (z.weight + o.weight) z o)
            (z.weight + o.weight)).length := by
          rw [pqEnqueue_length]
          simp only [List.length_cons]
          omega
        exact ih _ root hge h
/-! ### `buildEncodingTree` lemmas -/

theorem build_fold_length (f : List (Int × Int)) : ∀ (l : List (Int × Int))
    (pq0 : List (Node × Int)),
    (l.foldl (fun pq e =>
      pqEnqueue pq (Node.mkLeaf e.1 ((aget f e.1).getD 0))
        ((aget f e.1).getD 0)) pq0).length = pq0.length + l.length := by
  intro l
  induction l with
  | nil => intro pq0; simp
  | cons e rest ih =>
    intro pq0
    simp only [List.foldl_cons]
    rw [ih, pqEnqueue_length]
    simp only [List.length_cons]
    omega

theorem build_fold_chars (f : List (Int × Int)) : ∀ (l : List (Int × Int))
    (pq0 : List (Node × Int)),
    List.Perm
      (pqChars (l.foldl (fun pq e =>
        pqEnqueue pq (Node.mkLeaf e.1 ((aget f e.1).getD 0))
          ((aget f e.1).getD 0)) pq0))
      (pqChars pq0 ++ l.map Prod.fst) := by
  intro l
  induction l with
  | nil => intro pq0; simp
  | cons e rest ih =>
    intro pq0
    simp only [List.foldl_cons]
    refine (ih _).trans ?_
    have h1 : List.Perm
        (pqChars (pqEnqueue pq0 (Node.mkLeaf e.1 ((aget f e.1).getD 0))
          ((aget f e.1).getD 0)))
        (e.1 :: pqChars pq0) := by
      refine (pqChars_pqEnqueue _ _ _).trans ?_
      rw [show leafChars (Node.mkLeaf e.1 ((aget f e.1).getD 0)) = [e.1] from rfl]
      exact List.Perm.refl _
    refine (h1.append_right _).trans ?_
    simp only [List.map_cons, List.cons_append]
    exact (List.perm_middle).symm

theorem build_fold_weightOk (f : List (Int × Int)) : ∀ (l : List (Int × Int))
    (pq0 : List (Node × Int)), (∀ e ∈ pq0, weightOk e.1 = true) →
    ∀ e ∈ (l.foldl (fun pq e =>
      pqEnqueue pq (Node.mkLeaf e.1 ((aget f e.1).getD 0))
        ((aget f e.1).getD 0)) pq0), weightOk e.1 = true := by
  intro l
  induction l with
  | nil => intro pq0 h0; exact h0
  | cons e rest ih =>
    intro pq0 h0
    simp only [List.foldl_cons]
    refine ih _ ?_
    intro e2 he2
    rcases mem_pqEnqueue he2 with h1 | h1
    · subst h1; rfl
    · exact h0 e2 h1

theorem buildEncodingTree_some {f : List (Int × Int)} (h : f ≠ []) :
    ∃ root, buildEncodingTree f = some root := by
  rw [buildEncodingTree]
  refine mergeLoop_some _ _ (Nat.le_succ _) ?_
  intro hnil
  have hlen := build_fold_length f f []
  rw [hnil] at hlen
  simp at hlen
  exact h (List.eq_nil_of_length_eq_zero hlen.symm)

theorem buildEncodingTree_leafChars {f : List (Int × Int)} {root : Node}
    (h : buildEncodingTree f = some root) :
    List.Perm (leafChars root) (f.map Prod.fst) := by
  rw [buildEncodingTree] at h
  have hp := mergeLoop_perm _ _ root h
  refine hp.trans ?_
  have := build_fold_chars f f []
  simpa [pqChars] using this

theorem buildEncodingTree_weightOk {f : List (Int × Int)} {root : Node}
    (h : buildEncodingTree f = some root) : weightOk root = true := by
  rw [buildEncodingTree] at h
  exact mergeLoop_weightOk _ _ root
    (build_fold_weightOk f f [] (by intro e he; simp at he)) h

theorem buildEncodingTree_mkInt {f : List (Int × Int)} {root : Node}
    (h2 : 2 ≤ f.length) (h : buildEncodingTree f = some root) :
    ∃ w z o, root = Node.mkInt w z o := by
  rw [buildEncodingTree] at h
  refine mergeLoop_mkInt _ _ root ?_ h
  rw [build_fold_length f f []]
  simpa using h2

/-! ### String and decode-loop lemmas -/

theorem strmk_append (a b : List Char) :
    (⟨a⟩ : String) ++ (⟨b⟩ : String) = ⟨a ++ b⟩ := rfl

theorem natBytes_ne_nil (n : Nat) : natBytes n ≠ [] := by
  rw [natBytes, natBytesAux]
  split <;> simp

theorem integerToString_ne_empty (n : Int) : (integerToString n).data ≠ [] := by
  rw [integerToString]
  split
  · rw [String.data_append]
    simp
  · rw [natStr]
    simpa using natBytes_ne_nil n.toNat

theorem integerToString_bit (c : Char) (h : c = '0' ∨ c = '1') :
    integerToString ((c.toNat : Int) - 48) = ⟨[c]⟩ := by
  rcases h with rfl | rfl <;> decide

theorem leadsB_append (a t : List Char) : leadsB a (a ++ t) = true := by
  induction a with
  | nil => rfl
  | cons x as ih => simpa [leadsB] using ih

theorem leadsB_refl (a : List Char) : leadsB a a = true := by
  have := leadsB_append a []
  simpa using this

theorem decodeLoop_single_none (sym : Int) :
    ∀ (bits : List Int) (q : String) (out : List Int),
    decodeLoop [(("" : String), sym)] bits q out = none := by
  intro bits
  induction bits with
  | nil => intro q out; rfl
  | cons bit rest ih =>
    intro q out
    rw [decodeLoop]
    have hne : ¬ q ++ integerToString bit = "" := by
      intro h
      have hd : (q ++ integerToString bit).data = [] := by rw [h]
      rw [String.data_append] at hd
      exact integerToString_ne_empty bit (List.append_eq_nil.mp hd).2
    have hnone : aget [(("" : String), sym)] (q ++ integerToString bit) = none := by
      simp only [aget]
      rw [if_neg hne]
    rw [hnone]
    exact ih _ _

theorem decode_steps (m : List (String × Int)) (p : List Char) (sym : Int)
    (hget : aget m ⟨p⟩ = some sym)
    (hnone : ∀ q' r', p = q' ++ r' → r' ≠ [] → aget m ⟨q'⟩ = none)
    (hbits : ∀ c ∈ p, c = '0' ∨ c = '1') :
    ∀ (r : List Char) (q : List Char), p = q ++ r → r ≠ [] →
    ∀ (restBits : List Int) (out : List Int),
    decodeLoop m (r.map (fun c => (c.toNat : Int) - 48) ++ restBits) ⟨q⟩ out =
      if sym = PSEUDO_EOF then some (out, restBits)
      else decodeLoop m restBits "" (out ++ [sym % 256]) := by
  intro r
  induction r with
  | nil => intro q hq hne; exact absurd rfl hne
  | cons c r' ih =>
    intro q hq _ restBits out
    have hc : c = '0' ∨ c = '1' := hbits c (by rw [hq]; simp)
    simp only [List.map_cons, List.cons_append]
    rw [decodeLoop]
    rw [integerToString_bit c hc, strmk_append]
    cases r' with
    | nil =>
      have hqp : q ++ [c] = p := hq.symm
      rw [show aget m ⟨q ++ [c]⟩ = some sym by rw [hqp]; exact hget]
      simp only [List.map_nil, List.nil_append]
    | cons c2 r'' =>
      have hqnone : aget m ⟨q ++ [c]⟩ = none := by
        refine hnone (q ++ [c]) (c2 :: r'') ?_ (by simp)
        rw [hq, List.append_assoc]
        rfl
      rw [hqnone]
      exact ih (q ++ [c]) (by rw [hq, List.append_assoc]; rfl) (by simp) restBits out

/-! ### Code-map lookup facts for built trees -/

theorem leafChars_nodup {f : List (Int × Int)} {root : Node}
    (hnd : (f.map Prod.fst).Nodup) (h : buildEncodingTree f = some root) :
    (leafChars root).Nodup :=
  ((buildEncodingTree_leafChars h).nodup_iff).mpr hnd

theorem leafChars_ne257 {f : List (Int × Int)} {root : Node}
    (h257 : NOT_A_CHAR ∉ f.map Prod.fst) (h : buildEncodingTree f = some root) :
    ∀ c ∈ leafChars root, c ≠ NOT_A_CHAR := by
  intro c hc
  have hmem : c ∈ f.map Prod.fst := (buildEncodingTree_leafChars h).mem_iff.mp hc
  intro hcc
  exact h257 (hcc ▸ hmem)

theorem codesOf_fst_eq {f : List (Int × Int)} {root : Node}
    (h257 : NOT_A_CHAR ∉ f.map Prod.fst) (h : buildEncodingTree f = some root) :
    (codesOf root "").map Prod.fst = leafChars root := by
  rw [codesOf_map_fst]
  refine List.filter_eq_self.mpr ?_
  intro c hc
  simpa using leafChars_ne257 h257 h c hc

theorem codesOf_fst_nodup {f : List (Int × Int)} {root : Node}
    (hnd : (f.map Prod.fst).Nodup) (h257 : NOT_A_CHAR ∉ f.map Prod.fst)
    (h : buildEncodingTree f = some root) :
    ((codesOf root "").map Prod.fst).Nodup := by
  rw [codesOf_fst_eq h257 h]
  exact leafChars_nodup hnd h

theorem codesOf_snd_nodup (root : Node) :
    ((codesOf root "").map (fun e => e.2)).Nodup := by
  refine List.Pairwise.map _ ?_ (codesOf_pairwise root "")
  intro e1 e2 h12 heq
  rw [heq] at h12
  have h1 := h12.1
  rw [leadsB_refl] at h1
  exact Bool.noConfusion h1

theorem em_aget {f : List (Int × Int)} {root : Node}
    (hnd : (f.map Prod.fst).Nodup) (h257 : NOT_A_CHAR ∉ f.map Prod.fst)
    (h : buildEncodingTree f = some root) {b : Int} (hb : b ∈ f.map Prod.fst) :
    ∃ cb, aget (getEncodedMap root [] "") b = some cb ∧ (b, cb) ∈ codesOf root "" := by
  have hbl : b ∈ (codesOf root "").map Prod.fst := by
    rw [codesOf_fst_eq h257 h]
    exact (buildEncodingTree_leafChars h).mem_iff.mpr hb
  obtain ⟨e, he, heq⟩ := List.mem_map.mp hbl
  refine ⟨e.2, ?_, ?_⟩
  · rw [getEncodedMap_eq_foldl]
    have : (e.1, e.2) ∈ codesOf root "" := by simpa using he
    rw [heq] at this
    exact aget_foldl_aput_of_mem _ (codesOf_fst_nodup hnd h257 h) this
  · have : (e.1, e.2) ∈ codesOf root "" := by simpa using he
    rw [heq] at this
    exact this

theorem dm_aget {root : Node} {b : Int} {cb : String}
    (he : (b, cb) ∈ codesOf root "") :
    aget (getDecodedMap root [] "") cb = some b := by
  rw [getDecodedMap_eq_foldl]
  refine aget_foldl_aput_of_mem _ ?_ ?_
  · rw [List.map_map]
    exact codesOf_snd_nodup root
  · exact List.mem_map.mpr ⟨(b, cb), he, rfl⟩

theorem dm_aget_strict {root : Node} {b : Int} {cb : String}
    (he : (b, cb) ∈ codesOf root "") {q' r' : List Char}
    (hsplit : cb.data = q' ++ r') (hr : r' ≠ []) :
    aget (getDecodedMap root [] "") ⟨q'⟩ = none := by
  cases hv : aget (getDecodedMap root [] "") ⟨q'⟩ with
  | none => rfl
  | some s =>
    rw [getDecodedMap_eq_foldl] at hv
    rcases aget_foldl_aput_mem hv with hmem | hmem
    · obtain ⟨e, hecodes, heq⟩ := List.mem_map.mp hmem
      have hse : e = (s, ⟨q'⟩) := by
        obtain ⟨e1, e2⟩ := e
        simp [Prod.swap] at heq
        simp [heq.1, heq.2]
      rw [hse] at hecodes
      have hRdiff : (s, (⟨q'⟩ : String)) ≠ (b, cb) := by
        intro hcontra
        have : (⟨q'⟩ : String) = cb := congrArg Prod.snd hcontra
        have hd : q' = cb.data := by rw [← this]
        rw [hsplit] at hd
        have hlen := congrArg List.length hd
        rw [List.length_append] at hlen
        exact hr (List.eq_nil_of_length_eq_zero (by omega))
      have hsym : Symmetric (fun (e1 e2 : Int × String) =>
          leadsB e1.2.data e2.2.data = false ∧ leadsB e2.2.data e1.2.data = false) := by
        intro x y hxy
        exact ⟨hxy.2, hxy.1⟩
      have hpair := (codesOf_pairwise root "").forall hsym hecodes he hRdiff
      have hlead : leadsB (⟨q'⟩ : String).data cb.data = true := by
        rw [hsplit]
        exact leadsB_append q' r'
      rw [hpair.1] at hlead
      exact Bool.noConfusion hlead
    · simp [aget] at hmem

theorem codesOf_nonempty_of_mkInt {w : Int} {z o : Node} {b : Int} {cb : String}
    (he : (b, cb) ∈ codesOf (Node.mkInt w z o) "") : cb.data ≠ [] := by
  rw [codesOf] at he
  rcases List.mem_append.mp he with h1 | h1
  · obtain ⟨suf, hs⟩ := codesOf_extend z _ _ h1
    rw [show (("" : String) ++ "0").data = ['0'] from rfl] at hs
    simp only at hs
    rw [hs]
    simp
  · obtain ⟨suf, hs⟩ := codesOf_extend o _ _ h1
    rw [show (("" : String) ++ "1").data = ['1'] from rfl] at hs
    simp only at hs
    rw [hs]
    simp

/-! ### Encode shape and full-stream decode -/

theorem foldl_append_eq_join {α β : Type} (g : α → List β) (l : List α) :
    ∀ init : List β, l.foldl (fun acc x => acc ++ g x) init = init ++ (l.map g).flatten := by
  induction l with
  | nil => intro init; simp
  | cons e rest ih =>
    intro init
    simp only [List.foldl_cons, List.map_cons, List.flatten_cons]
    rw [ih, List.append_assoc]

theorem encodeFile_eq_join (input : List Int) (tree : Node) :
    encodeFile input tree =
      (input.map (fun b => strBits ((aget (getEncodedMap tree [] "") b).getD ""))).flatten
        ++ strBits ((aget (getEncodedMap tree [] "") PSEUDO_EOF).getD "") := by
  rw [encodeFile]
  rw [foldl_append_eq_join]
  simp

theorem decode_concat {f : List (Int × Int)} {root : Node}
    (hnd : (f.map Prod.fst).Nodup) (h257 : NOT_A_CHAR ∉ f.map Prod.fst)
    (h : buildEncodingTree f = some root)
    (hint : ∃ w z o, root = Node.mkInt w z o)
    (heof : PSEUDO_EOF ∈ f.map Prod.fst) :
    ∀ (syms : List Int) (out : List Int),
    (∀ b ∈ syms, b ∈ f.map Prod.fst ∧ b ≠ PSEUDO_EOF) →
    decodeLoop (getDecodedMap root [] "")
      ((syms.map (fun b => strBits ((aget (getEncodedMap root [] "") b).getD ""))).flatten
        ++ strBits ((aget (getEncodedMap root [] "") PSEUDO_EOF).getD ""))
      "" out = some (out ++ syms.map (fun b => b % 256), []) := by
  intro syms
  induction syms with
  | nil =>
    intro out _
    obtain ⟨ceof, hceof, hceofmem⟩ := em_aget hnd h257 h heof
    have hbits01 : ∀ c ∈ ceof.data, c = '0' ∨ c = '1' :=
      codesOf_bitchars root "" (by intro c hc; exact absurd hc (by simp)) _ hceofmem
    have hne : ceof.data ≠ [] := by
      obtain ⟨w, z, o, rfl⟩ := hint
      exact codesOf_nonempty_of_mkInt hceofmem
    have hst := decode_steps (getDecodedMap root [] "") ceof.data PSEUDO_EOF
      (dm_aget hceofmem) (fun q' r' hs hr => dm_aget_strict hceofmem hs hr)
      hbits01 ceof.data [] rfl hne [] out
    rw [if_pos rfl, List.append_nil] at hst
    rw [show (⟨[]⟩ : String) = "" from rfl] at hst
    simp only [List.map_nil, List.flatten_nil, List.nil_append, List.append_nil]
    rw [hceof, Option.getD_some]
    exact hst
  | cons b rest ih =>
    intro out hall
    obtain ⟨hbmem, hbne⟩ := hall b (by simp)
    obtain ⟨cb, hcb, hcbmem⟩ := em_aget hnd h257 h hbmem
    have hbits01 : ∀ c ∈ cb.data, c = '0' ∨ c = '1' :=
      codesOf_bitchars root "" (by intro c hc; exact absurd hc (by simp)) _ hcbmem
    have hne : cb.data ≠ [] := by
      obtain ⟨w, z, o, rfl⟩ := hint
      exact codesOf_nonempty_of_mkInt hcbmem
    have hst := decode_steps (getDecodedMap root [] "") cb.data b
      (dm_aget hcbmem) (fun q' r' hs hr => dm_aget_strict hcbmem hs hr)
      hbits01 cb.data [] rfl hne
      ((rest.map (fun b => strBits ((aget (getEncodedMap root [] "") b).getD ""))).flatten
        ++ strBits ((aget (getEncodedMap root [] "") PSEUDO_EOF).getD "")) out
    rw [if_neg hbne] at hst
    rw [show (⟨[]⟩ : String) = "" from rfl] at hst
    simp only [List.map_cons, List.flatten_cons]
    rw [hcb, Option.getD_some, List.append_assoc]
    rw [show strBits cb = cb.data.map (fun c => (c.toNat : Int) - 48) from rfl]
    rw [hst, ih (out ++ [b % 256]) (fun b2 hb2 => hall b2 (List.mem_cons_of_mem _ hb2))]
    rw [List.append_assoc]
    rfl

/-! ### Decimal printing and parsing -/

theorem natBytesAux_digits : ∀ (fuel n : Nat), ∀ b ∈ natBytesAux fuel n,
    48 ≤ b ∧ b ≤ 57 := by
  intro fuel
  induction fuel with
  | zero => intro n b hb; simp [natBytesAux] at hb
  | succ fuel ih =>
    intro n b hb
    rw [natBytesAux] at hb
    by_cases h : n < 10
    · rw [if_pos h] at hb
      simp at hb
      subst hb
      constructor <;> (push_cast; omega)
    · rw [if_neg h] at hb
      rcases List.mem_append.mp hb with h1 | h1
      · exact ih _ b h1
      · simp at h1
        subst h1
        have : n % 10 < 10 := Nat.mod_lt _ (by omega)
        constructor <;> (push_cast; omega)

theorem natBytesAux_ne_nil (fuel n : Nat) (h : n < fuel) :
    natBytesAux fuel n ≠ [] := by
  cases fuel with
  | zero => omega
  | succ fuel =>
    rw [natBytesAux]
    split <;> simp

theorem parseDigitsLoop_nondigit (rest : List Int) (m : Nat)
    (h : ∀ b l, rest = b :: l → isDigitByte b = false) :
    parseDigitsLoop rest m = (m, rest) := by
  cases rest with
  | nil => rfl
  | cons b l =>
    rw [parseDigitsLoop, if_neg (by rw [h b l rfl]; simp)]

theorem parseDigitsLoop_natBytesAux : ∀ (fuel n acc : Nat) (rest : List Int),
    n < fuel →
    parseDigitsLoop (natBytesAux fuel n ++ rest) acc =
      parseDigitsLoop rest (acc * 10 ^ (natBytesAux fuel n).length + n) := by
  intro fuel
  induction fuel with
  | zero => intro n acc rest h; omega
  | succ fuel ih =>
    intro n acc rest h
    rw [natBytesAux]
    by_cases h10 : n < 10
    · rw [if_pos h10]
      simp only [List.singleton_append, List.length_singleton]
      rw [parseDigitsLoop, if_pos (by simp only [isDigitByte]; push_cast; simp; omega)]
      have hsub : ((((48 + n : Nat) : Int)) - 48).toNat = n := by push_cast; omega
      rw [hsub, pow_one]
    · rw [if_neg h10]
      have hrec : n / 10 < fuel := by
        have : n / 10 < n := Nat.div_lt_self (by omega) (by omega)
        omega
      rw [List.append_assoc, ih (n / 10) acc _ hrec]
      rw [List.singleton_append]
      rw [parseDigitsLoop, if_pos (by
        simp only [isDigitByte]
        have : n % 10 < 10 := Nat.mod_lt _ (by omega)
        push_cast
        simp
        omega)]
      have hsub : ((((48 + n % 10 : Nat) : Int)) - 48).toNat = n % 10 := by
        push_cast
        omega
      rw [hsub]
      congr 1
      rw [List.length_append, List.length_singleton, pow_succ]
      have hdm : n / 10 * 10 + n % 10 = n := by omega
      calc (acc * 10 ^ (natBytesAux fuel (n / 10)).length + n / 10) * 10 + n % 10
          = acc * (10 ^ (natBytesAux fuel (n / 10)).length * 10) +
              (n / 10 * 10 + n % 10) := by ring
        _ = acc * (10 ^ (natBytesAux fuel (n / 10)).length * 10) + n := by rw [hdm]

theorem parseDigits_natBytes (n : Nat) (rest : List Int)
    (hrest : ∀ b l, rest = b :: l → isDigitByte b = false) :
    parseDigits (natBytes n ++ rest) = some (n, rest) := by
  have hne : natBytes n ≠ [] := natBytesAux_ne_nil _ _ (by omega)
  cases hnb : natBytes n with
  | nil => exact absurd hnb hne
  | cons b t =>
    have hb : 48 ≤ b ∧ b ≤ 57 := by
      refine natBytesAux_digits (n + 1) n b ?_
      rw [show natBytesAux (n + 1) n = natBytes n from rfl, hnb]
      simp
    rw [List.cons_append, parseDigits, if_pos (by
      simp only [isDigitByte, Bool.and_eq_true, decide_eq_true_eq]
      omega)]
    rw [← List.cons_append, ← hnb, natBytes,
      parseDigitsLoop_natBytesAux (n + 1) n 0 rest (by omega)]
    rw [Nat.zero_mul, Nat.zero_add]
    rw [parseDigitsLoop_nondigit rest n hrest]

/-! ### Stream reading lemmas -/

theorem skipWsData_no_ws (l : List Int)
    (h : ∀ b t, l = b :: t → isWsByte b = false) : skipWsData l = l := by
  cases l with
  | nil => rfl
  | cons b t =>
    rw [skipWsData, if_neg (by simp [h b t rfl])]

theorem readInt_digits (val b : Int) (l : List Int) (hws : isWsByte b = false)
    (hb45 : ¬ b = 45) (m : Nat) (rest : List Int)
    (hp : parseDigits (b :: l) = some (m, rest)) :
    readInt val ⟨b :: l, false⟩ = ((m : Int), ⟨rest, false⟩) := by
  rw [readInt]
  simp only [show (⟨b :: l, false⟩ : ByteStream).failed = false from rfl,
    Bool.false_eq_true, if_false,
    show (⟨b :: l, false⟩ : ByteStream).data = b :: l from rfl]
  rw [skipWsData, if_neg (by simp [hws])]
  dsimp only
  rw [if_neg hb45, hp]
  rfl

theorem readInt_natBytes (val : Int) (n : Nat) (rest : List Int)
    (hrest : ∀ b l, rest = b :: l → isDigitByte b = false) :
    readInt val ⟨natBytes n ++ rest, false⟩ = ((n : Int), ⟨rest, false⟩) := by
  have hne : natBytes n ≠ [] := natBytesAux_ne_nil _ _ (by omega)
  have hp := parseDigits_natBytes n rest hrest
  cases hnb : natBytes n with
  | nil => exact absurd hnb hne
  | cons b t =>
    have hb : 48 ≤ b ∧ b ≤ 57 := by
      refine natBytesAux_digits (n + 1) n b ?_
      rw [show natBytesAux (n + 1) n = natBytes n from rfl, hnb]
      simp
    rw [hnb, List.cons_append] at hp
    rw [List.cons_append]
    refine readInt_digits val b (t ++ rest) ?_ (by omega) n rest hp
    simp only [isWsByte]
    simp only [Bool.or_eq_false_iff, decide_eq_false_iff_not]
    omega

theorem intBytes_of_pos (f : Int) (hf : 1 ≤ f) :
    intBytes f = natBytes f.toNat := by
  rw [intBytes, if_neg (by omega)]

theorem readPairs_step (junk ch f : Int) (hf : 1 ≤ f)
    (rem : List Int) (n : Nat) (t : List (Int × Int)) :
    readPairsLoop junk (n + 1) ⟨ch :: (intBytes f ++ 32 :: rem), false⟩ t =
      readPairsLoop junk n ⟨rem, false⟩ (mput t ch f) := by
  have h2 : readInt junk ⟨intBytes f ++ 32 :: rem, false⟩ =
      (f, ⟨32 :: rem, false⟩) := by
    rw [intBytes_of_pos f hf]
    rw [readInt_natBytes junk f.toNat (32 :: rem)
      (by intro b l heq; injection heq with hb _; rw [← hb]; rfl)]
    rw [Int.toNat_of_nonneg (by omega : (0 : Int) ≤ f)]
  rw [readPairsLoop]
  rw [show bsGet ⟨ch :: (intBytes f ++ 32 :: rem), false⟩ =
    (ch, ⟨intBytes f ++ 32 :: rem, false⟩) from rfl]
  dsimp only
  rw [h2]
  dsimp only
  rw [show bsGet ⟨32 :: rem, false⟩ = (32, ⟨rem, false⟩) from rfl]

theorem readPairsLoop_entries (junk : Int) :
    ∀ (l : List (Int × Int)) (t : List (Int × Int)),
    (∀ e ∈ l, (0 ≤ e.1 ∧ e.1 < 256) ∧ 1 ≤ e.2) →
    readPairsLoop junk l.length
      ⟨(l.map (fun e => [e.1 % 256] ++ intBytes e.2 ++ [32])).flatten, false⟩ t =
      l.foldl (fun t e => mput t e.1 e.2) t := by
  intro l
  induction l with
  | nil => intro t _; rfl
  | cons e rest ih =>
    intro t hall
    obtain ⟨⟨h0, h256⟩, hf⟩ := hall e (by simp)
    have hdata : ([e.1 % 256] ++ intBytes e.2 ++ [32]) ++
        (rest.map (fun e => [e.1 % 256] ++ intBytes e.2 ++ [32])).flatten =
        e.1 % 256 :: (intBytes e.2 ++ 32 ::
          (rest.map (fun e => [e.1 % 256] ++ intBytes e.2 ++ [32])).flatten) := by
      simp [List.append_assoc]
    rw [List.map_cons, List.flatten_cons, List.length_cons, hdata,
      Int.emod_eq_of_lt h0 h256, readPairs_step junk e.1 e.2 hf, List.foldl_cons]
    exact ih (mput t e.1 e.2) (fun e2 he2 => hall e2 (List.mem_cons_of_mem _ he2))

/-! ### Header round-trip lemmas -/

theorem aget_append_last (l : List (Int × Int)) (k v : Int)
    (h : ∀ e ∈ l, e.1 ≠ k) : aget (l ++ [(k, v)]) k = some v := by
  induction l with
  | nil => simp [aget]
  | cons e rest ih =>
    obtain ⟨k1, v1⟩ := e
    rw [List.cons_append, aget, if_neg (fun hy =>
      (h (k1, v1) (List.mem_cons_self _ _)) hy.symm)]
    exact ih (fun e he => h e (List.mem_cons_of_mem _ he))

theorem headerEntries_eq (t : List (Int × Int)) :
    headerEntries t = (t.map (fun e =>
      if e.1 = PSEUDO_EOF then [] else [e.1 % 256] ++ intBytes e.2 ++ [32])).flatten := by
  rw [headerEntries]
  have hfun : (fun (acc : List Int) (e : Int × Int) =>
      if e.1 = PSEUDO_EOF then acc else acc ++ [e.1 % 256] ++ intBytes e.2 ++ [32]) =
      (fun acc e => acc ++
        (if e.1 = PSEUDO_EOF then [] else [e.1 % 256] ++ intBytes e.2 ++ [32])) := by
    funext acc e
    by_cases h : e.1 = PSEUDO_EOF <;> simp [h, List.append_assoc]
  rw [hfun, foldl_append_eq_join]
  simp

theorem writeFileHeader_eq (T : List (Int × Int))
    (hc : containsKey T PSEUDO_EOF = true) :
    writeFileHeader T =
      some (natBytes (T.length - 1) ++ [32] ++ headerEntries T) := by
  rw [writeFileHeader, if_neg (by simp [hc])]

theorem readFileHeader_writeFileHeader (junk : Int) (T' : List (Int × Int))
    (hkeys : ∀ e ∈ T', (0 ≤ e.1 ∧ e.1 < 256) ∧ 1 ≤ e.2)
    (hsorted : SortedKeys (T' ++ [(PSEUDO_EOF, 1)])) :
    writeFileHeader (T' ++ [(PSEUDO_EOF, 1)]) =
      some (natBytes T'.length ++ [32] ++
        (T'.map (fun e => [e.1 % 256] ++ intBytes e.2 ++ [32])).flatten) ∧
    readFileHeader junk (natBytes T'.length ++ [32] ++
        (T'.map (fun e => [e.1 % 256] ++ intBytes e.2 ++ [32])).flatten) =
      T' ++ [(PSEUDO_EOF, 1)] := by
  have hkey256 : ∀ e ∈ T', e.1 ≠ PSEUDO_EOF := by
    intro e he
    have := (hkeys e he).1
    rw [PSEUDO_EOF]
    omega
  have hc : containsKey (T' ++ [(PSEUDO_EOF, 1)]) PSEUDO_EOF = true := by
    rw [containsKey, aget_append_last _ _ _ hkey256]
    rfl
  constructor
  · rw [writeFileHeader_eq _ hc]
    have hlen : (T' ++ [(PSEUDO_EOF, 1)]).length - 1 = T'.length := by simp
    have hent : headerEntries (T' ++ [(PSEUDO_EOF, 1)]) =
        (T'.map (fun e => [e.1 % 256] ++ intBytes e.2 ++ [32])).flatten := by
      rw [headerEntries_eq, List.map_append]
      rw [List.map_congr_left (fun e he =>
        if_neg (hkey256 e he) :
        ∀ e ∈ T', (if e.1 = PSEUDO_EOF then ([] : List Int)
          else [e.1 % 256] ++ intBytes e.2 ++ [32]) =
          [e.1 % 256] ++ intBytes e.2 ++ [32])]
      simp
    rw [hlen, hent]
  · have hF : ∀ b l,
        (T'.map (fun e => [e.1 % 256] ++ intBytes e.2 ++ [32])).flatten = b :: l →
        True := fun _ _ _ => trivial
    rw [readFileHeader]
    have h1 : readInt junk ⟨natBytes T'.length ++ [32] ++
        (T'.map (fun e => [e.1 % 256] ++ intBytes e.2 ++ [32])).flatten, false⟩ =
        ((T'.length : Int), ⟨32 ::
          (T'.map (fun e => [e.1 % 256] ++ intBytes e.2 ++ [32])).flatten, false⟩) := by
      rw [List.append_assoc, List.singleton_append]
      exact readInt_natBytes junk _ _
        (by intro b l heq; injection heq with hb _; rw [← hb]; rfl)
    rw [h1]
    dsimp only
    rw [show bsGet ⟨32 ::
        (T'.map (fun e => [e.1 % 256] ++ intBytes e.2 ++ [32])).flatten, false⟩ =
      (32, ⟨(T'.map (fun e => [e.1 % 256] ++ intBytes e.2 ++ [32])).flatten, false⟩)
      from rfl]
    dsimp only
    rw [show ((T'.length : Int)).toNat = T'.length by simp]
    rw [readPairsLoop_entries junk T' [] hkeys]
    rw [foldl_mput_of_sorted T' []
      (by simpa using (List.pairwise_append.mp hsorted).1)]
    rw [List.nil_append]
    exact mput_append_of_lt 1 (fun e he => by
      have := (hkeys e he).1
      rw [PSEUDO_EOF]
      omega)

/-! ### Table-shape helpers -/

theorem aget_of_mem_nodup {K V : Type} [DecidableEq K]
    {l : List (K × V)} {k : K} {v : V}
    (hnd : (l.map Prod.fst).Nodup) (hm : (k, v) ∈ l) : aget l k = some v := by
  induction l with
  | nil => simp at hm
  | cons e rest ih =>
    obtain ⟨k1, v1⟩ := e
    simp only [List.map_cons, List.nodup_cons] at hnd
    rcases List.mem_cons.mp hm with h1 | h1
    · injection h1 with h1a h1b
      subst h1a
      subst h1b
      simp [aget]
    · have hk : k ≠ k1 := by
        intro hcontra
        subst hcontra
        exact hnd.1 (List.mem_map.mpr ⟨(k, v), h1, rfl⟩)
      rw [aget, if_neg hk]
      exact ih hnd.2 h1

theorem SortedKeys.nodup_keys {T : List (Int × Int)} (hs : SortedKeys T) :
    (T.map Prod.fst).Nodup := by
  have h1 : (T.map Prod.fst).Pairwise (· < ·) :=
    List.Pairwise.map _ (fun a b hab => hab) hs
  exact h1.imp (fun hab => ne_of_lt hab)

theorem sorted_split256 (T : List (Int × Int)) (hs : SortedKeys T)
    (hmem : (PSEUDO_EOF, 1) ∈ T) (hle : ∀ e ∈ T, e.1 ≤ PSEUDO_EOF) :
    ∃ T', T = T' ++ [(PSEUDO_EOF, 1)] := by
  induction T with
  | nil => simp at hmem
  | cons e rest ih =>
    rw [SortedKeys, List.pairwise_cons] at hs
    rcases List.mem_cons.mp hmem with h1 | h1
    · subst h1
      cases rest with
      | nil => exact ⟨[], rfl⟩
      | cons r rrest =>
        have hgt := hs.1 r (List.mem_cons_self _ _)
        have hler := hle r (List.mem_cons_of_mem _ (List.mem_cons_self _ _))
        simp only at hgt
        omega
    · obtain ⟨T'', hT''⟩ := ih hs.2 h1
        (fun e2 he2 => hle e2 (List.mem_cons_of_mem _ he2))
      exact ⟨e :: T'', by rw [hT'']; rfl⟩

/-! ### Failed-stream lemmas -/

theorem readPairsLoop_failed (junk : Int) (n : Nat) (d : List Int)
    (t : List (Int × Int)) :
    readPairsLoop junk (n + 1) ⟨d, true⟩ t =
      readPairsLoop junk n ⟨d, true⟩ (mput t (-1) junk) := by
  rw [readPairsLoop]
  rw [show bsGet ⟨d, true⟩ = (-1, ⟨d, true⟩) from rfl]
  dsimp only
  rw [show readInt junk ⟨d, true⟩ = (junk, ⟨d, true⟩) from rfl]
  dsimp only
  rw [show bsGet ⟨d, true⟩ = (-1, ⟨d, true⟩) from rfl]

theorem readPairsLoop_failed_stable (junk : Int) (n : Nat) (d : List Int) :
    readPairsLoop junk n ⟨d, true⟩ [(-1, junk)] = [(-1, junk)] := by
  induction n with
  | zero => rfl
  | succ n ih =>
    rw [readPairsLoop_failed]
    rw [show mput [((-1 : Int), junk)] (-1) junk = [(-1, junk)] from by
      rw [mput, if_neg (by omega), if_pos rfl]]
    exact ih

/-! ### Claim theorems -/

/-- C2: for every frequency table containing the sentinel, in the
symbol-to-codeword table derived by `getEncodedMap` from the tree built
by `buildEncodingTree`, the codewords of two distinct symbols are never
in the initial-segment relation: neither is a prefix of the other. -/
theorem C2_prefix_free (T : List (Int × Int)) (root : Node)
    (hsent : containsKey T PSEUDO_EOF = true)
    (h : buildEncodingTree T = some root)
    (a b : Int) (ca cb : String) (hab : a ≠ b)
    (ha : aget (getEncodedMap root [] "") a = some ca)
    (hb : aget (getEncodedMap root [] "") b = some cb) :
    strLeads ca cb = false := by
  rw [getEncodedMap_eq_foldl] at ha hb
  rcases aget_foldl_aput_mem ha with hma | hma
  · rcases aget_foldl_aput_mem hb with hmb | hmb
    · have hdiff : (a, ca) ≠ (b, cb) := by
        intro hcontra
        exact hab (congrArg Prod.fst hcontra)
      have hsym : Symmetric (fun (e1 e2 : Int × String) =>
          leadsB e1.2.data e2.2.data = false ∧
          leadsB e2.2.data e1.2.data = false) :=
        fun x y hxy => ⟨hxy.2, hxy.1⟩
      exact ((codesOf_pairwise root "").forall hsym hma hmb hdiff).1
    · simp [aget] at hmb
  · simp [aget] at hma

theorem C2_witness : strLeads "0" "1" = false :=
  C2_prefix_free [(97, 1), (256, 1)]
    (Node.mkInt 2 (Node.mkLeaf 97 1) (Node.mkLeaf 256 1))
    (by decide) (by decide) 97 256 "0" "1" (by decide) (by decide) (by decide)

/-- C3: the claim says that on a single-leaf tree (built from the table
whose only entry is the sentinel) `decodeFile` terminates immediately,
consuming zero bits and emitting nothing.  The source instead reads a
bit BEFORE testing `currCode` against the decode map; the only codeword
of a single-leaf tree is the empty string, which the ever-growing
`currCode` can never equal again, so the loop never exits: `decodeFile`
never returns successfully on such a tree, for any bit source. -/
theorem C3_single_leaf_decode_diverges :
    buildEncodingTree [(PSEUDO_EOF, 1)] = some (Node.mkLeaf PSEUDO_EOF 1) ∧
    ∀ (bits : List Int) (w : Int),
      decodeFile bits (Node.mkLeaf PSEUDO_EOF w) = none := by
  constructor
  · decide
  · intro bits w
    rw [decodeFile]
    rw [show getDecodedMap (Node.mkLeaf PSEUDO_EOF w) [] "" =
      [(("" : String), PSEUDO_EOF)] from by
        rw [getDecodedMap, if_pos (by decide)]
        rfl]
    exact decodeLoop_single_none PSEUDO_EOF bits "" []

/-- C5 counterexample: the claim says `readFileHeader` aborts and does
not return a table when the declared count exceeds the available data.
On the header bytes of `"2 a1 bx"` (count 2 declared, but the second
pair has no readable frequency: the byte after the symbol `b` is the
non-digit `x`), the extraction sentry succeeds, `num_get` fails and
stores 0 (C++11), and the function still returns a table.  Every read
on this trace is fully defined — the count and the first pair parse,
and the uninitialized locals are never read — so the result does not
depend on the indeterminate-content parameter, as the two instances
(`0` and `37`) show. -/
theorem C5_counterexample :
    readFileHeader 0 [50, 32, 97, 49, 32, 98, 120] =
      [(97, 1), (98, 0), (256, 1)] ∧
    readFileHeader 37 [50, 32, 97, 49, 32, 98, 120] =
      [(97, 1), (98, 0), (256, 1)] := by
  decide

/-- C5 (amended): `readFileHeader` does not abort on truncation: it
always returns a table.  With a declared count of N ≥ 1 and no pairs
available, every loop iteration reads the symbol as EOF (`-1`) and the
frequency extraction has a false sentry, leaving the uninitialized
`frequency` unmodified; the returned table holds `-1` mapped to that
indeterminate content (the statement is proved for every value `junk`
it may hold) alongside the sentinel. -/
theorem C5_truncation_returns_table (junk : Int) (N : Nat) (h : 1 ≤ N) :
    readFileHeader junk (natBytes N ++ [32]) = [(-1, junk), (PSEUDO_EOF, 1)] := by
  obtain ⟨m, rfl⟩ : ∃ m, N = m + 1 := ⟨N - 1, by omega⟩
  rw [readFileHeader]
  rw [readInt_natBytes junk (m + 1) [32]
    (by intro b l heq; injection heq with hb _; rw [← hb]; rfl)]
  dsimp only
  rw [show bsGet ⟨[32], false⟩ = (32, ⟨[], false⟩) from rfl]
  dsimp only
  rw [show (((m + 1 : Nat) : Int)).toNat = m + 1 by simp]
  rw [readPairsLoop]
  rw [show bsGet ⟨[], false⟩ = (-1, ⟨[], true⟩) from rfl]
  dsimp only
  rw [show readInt junk ⟨[], true⟩ = (junk, ⟨[], true⟩) from rfl]
  dsimp only
  rw [show bsGet ⟨[], true⟩ = (-1, ⟨[], true⟩) from rfl]
  rw [show mput ([] : List (Int × Int)) (-1) junk = [(-1, junk)] from rfl]
  rw [readPairsLoop_failed_stable]
  rw [show mput [((-1 : Int), junk)] PSEUDO_EOF 1 = [(-1, junk), (PSEUDO_EOF, 1)] from by
    rw [mput, if_neg (by decide), if_neg (by decide)]
    rfl]

theorem C5_truncation_witness :
    readFileHeader 5 (natBytes 2 ++ [32]) = [(-1, 5), (PSEUDO_EOF, 1)] :=
  C5_truncation_returns_table 5 2 (by decide)

/-- C6: `writeFileHeader` fails (the `error` call, embedded as `none`)
exactly when the table does not contain the sentinel; otherwise it
writes the header (the count of non-sentinel entries, a space, and the
entry encodings).  The embedding is purely functional, so the input
table is never modified. -/
theorem C6_writeFileHeader_sentinel (T : List (Int × Int)) :
    (writeFileHeader T = none ↔ containsKey T PSEUDO_EOF = false) ∧
    (writeFileHeader T = none ∨
      writeFileHeader T =
        some (natBytes (T.length - 1) ++ [32] ++ headerEntries T)) := by
  by_cases h : containsKey T PSEUDO_EOF
  · refine ⟨?_, Or.inr (writeFileHeader_eq T h)⟩
    rw [writeFileHeader_eq T h]
    simp [h]
  · have hnone : writeFileHeader T = none := by
      rw [writeFileHeader, if_pos (by simp [h])]
    refine ⟨?_, Or.inl hnone⟩
    rw [hnone]
    simp [Bool.eq_false_iff, h]

/-- C7: `getFrequencyTable` maps the sentinel to exactly 1, maps each
distinct input byte to its number of occurrences, and contains nothing
else; it is total (no failure modes), and an empty input yields only
the sentinel entry (the `count = 0` branch). -/
theorem C7_frequency_table (input : List Int) (b : Int) (hb : b ≠ PSEUDO_EOF) :
    aget (getFrequencyTable input) PSEUDO_EOF = some 1 ∧
    aget (getFrequencyTable input) b =
      (if input.count b = 0 then none else some ((input.count b : Int))) := by
  constructor
  · rw [getFrequencyTable_aget]
    simp
  · rw [getFrequencyTable_aget, if_neg hb]

theorem C7_witness :
    aget (getFrequencyTable [97, 97, 98]) PSEUDO_EOF = some 1 ∧
    aget (getFrequencyTable [97, 97, 98]) 97 =
      (if [97, 97, 98].count (97 : Int) = 0 then none
       else some (([97, 97, 98].count (97 : Int) : Int))) :=
  C7_frequency_table [97, 97, 98] 97 (by decide)

/-- C8: every tree returned by `buildEncodingTree` satisfies the weight
invariant: each internal node weighs the sum of its two children,
recursively. -/
theorem C8_weight_invariant (T : List (Int × Int)) (root : Node)
    (h : buildEncodingTree T = some root) : weightOk root = true :=
  buildEncodingTree_weightOk h

theorem C8_witness :
    buildEncodingTree [(97, 1), (256, 1)] =
      some (Node.mkInt 2 (Node.mkLeaf 97 1) (Node.mkLeaf 256 1)) ∧
    weightOk (Node.mkInt 2 (Node.mkLeaf 97 1) (Node.mkLeaf 256 1)) = true :=
  ⟨by decide, C8_weight_invariant [(97, 1), (256, 1)] _ (by decide)⟩

/-- C9: when every input byte has a codeword in the derived table (and
the sentinel has one), `encodeFile` writes exactly the concatenation,
in input order, of the codeword bits of each input byte, followed by
one copy of the sentinel codeword, and nothing else. -/
theorem C9_encode_concat (input : List Int) (tree : Node) (cw : Int → String)
    (h : ∀ b ∈ input, aget (getEncodedMap tree [] "") b = some (cw b))
    (heof : aget (getEncodedMap tree [] "") PSEUDO_EOF = some (cw PSEUDO_EOF)) :
    encodeFile input tree =
      (input.map (fun b => strBits (cw b))).flatten ++ strBits (cw PSEUDO_EOF) := by
  rw [encodeFile_eq_join, heof, Option.getD_some]
  congr 1
  congr 1
  refine List.map_congr_left ?_
  intro b hb
  rw [h b hb, Option.getD_some]

theorem C9_witness :
    encodeFile [97] (Node.mkInt 2 (Node.mkLeaf 97 1) (Node.mkLeaf 256 1)) =
      (([97] : List Int).map (fun b =>
        strBits (if b = 97 then "0" else "1"))).flatten ++
      strBits (if (PSEUDO_EOF : Int) = 97 then "0" else "1") :=
  C9_encode_concat [97] (Node.mkInt 2 (Node.mkLeaf 97 1) (Node.mkLeaf 256 1))
    (fun b => if b = 97 then "0" else "1") (by decide) (by decide)

/-- C4: serializing a well-formed frequency table (sorted map whose
keys are byte values plus the sentinel, whose counts are positive, and
whose sentinel count is 1) with `writeFileHeader` and parsing the bytes
back with `readFileHeader` returns exactly the same table. -/
theorem C4_header_roundtrip (junk : Int) (T : List (Int × Int))
    (hsorted : SortedKeys T)
    (hkeys : ∀ e ∈ T, (0 ≤ e.1 ∧ e.1 < 256) ∨ e.1 = PSEUDO_EOF)
    (hvals : ∀ e ∈ T, 1 ≤ e.2)
    (hsent : aget T PSEUDO_EOF = some 1) :
    ∃ h, writeFileHeader T = some h ∧ readFileHeader junk h = T := by
  have hmem : (PSEUDO_EOF, 1) ∈ T := mem_of_aget hsent
  obtain ⟨T', rfl⟩ := sorted_split256 T hsorted hmem (by
    intro e he
    rcases hkeys e he with h | h
    · rw [PSEUDO_EOF]; omega
    · omega)
  have hk : ∀ e ∈ T', (0 ≤ e.1 ∧ e.1 < 256) ∧ 1 ≤ e.2 := by
    intro e he
    have hmem2 : e ∈ T' ++ [(PSEUDO_EOF, 1)] := List.mem_append.mpr (Or.inl he)
    rcases hkeys e hmem2 with h | h
    · exact ⟨h, hvals e hmem2⟩
    · exfalso
      have hlt := (List.pairwise_append.mp hsorted).2.2 e he (PSEUDO_EOF, 1)
        (by simp)
      simp only at hlt
      omega
  obtain ⟨hw, hr⟩ := readFileHeader_writeFileHeader junk T' hk hsorted
  exact ⟨_, hw, hr⟩

theorem C4_witness :
    SortedKeys [((97 : Int), (2 : Int)), (256, 1)] ∧
    ∃ h, writeFileHeader [((97 : Int), (2 : Int)), (256, 1)] = some h ∧
      readFileHeader 0 h = [((97 : Int), (2 : Int)), (256, 1)] :=
  ⟨by unfold SortedKeys; decide, C4_header_roundtrip 0 [(97, 2), (256, 1)]
    (by unfold SortedKeys; decide) (by decide) (by decide) (by decide)⟩

/-- C10: for a tree built from a table with the `Map` invariant (sorted,
hence unique, keys) none of which is the internal marker, the decoding
map is the exact inverse of the encoding map (a symbol maps to a
codeword if and only if that codeword maps back to that symbol), and
each map has exactly one entry per leaf of the tree. -/
theorem C10_maps_inverse (T : List (Int × Int)) (root : Node)
    (hs : SortedKeys T) (h257 : NOT_A_CHAR ∉ T.map Prod.fst)
    (h : buildEncodingTree T = some root) :
    (∀ (s : Int) (c : String),
      aget (getEncodedMap root [] "") s = some c ↔
      aget (getDecodedMap root [] "") c = some s) ∧
    (getEncodedMap root [] "").length = numLeaves root ∧
    (getDecodedMap root [] "").length = numLeaves root := by
  have hnd : (T.map Prod.fst).Nodup := hs.nodup_keys
  refine ⟨?_, ?_, ?_⟩
  · intro s c
    constructor
    · intro hsc
      rw [getEncodedMap_eq_foldl] at hsc
      rcases aget_foldl_aput_mem hsc with hmem | hmem
      · exact dm_aget hmem
      · simp [aget] at hmem
    · intro hcs
      rw [getDecodedMap_eq_foldl] at hcs
      rcases aget_foldl_aput_mem hcs with hmem | hmem
      · obtain ⟨e, he, heq⟩ := List.mem_map.mp hmem
        have he2 : e = (s, c) := by
          obtain ⟨e1, e2⟩ := e
          simp [Prod.swap] at heq
          simp [heq.1, heq.2]
        rw [he2] at he
        rw [getEncodedMap_eq_foldl]
        exact aget_foldl_aput_of_mem _ (codesOf_fst_nodup hnd h257 h) he
      · simp [aget] at hmem
  · rw [getEncodedMap_eq_foldl]
    rw [foldl_aput_length _ _ (codesOf_fst_nodup hnd h257 h)
      (by intro k _ hk; simp at hk)]
    simp only [List.length_nil, Nat.zero_add]
    exact codesOf_length root "" (leafChars_ne257 h257 h)
  · rw [getDecodedMap_eq_foldl]
    have hnd2 : (((codesOf root "").map Prod.swap).map Prod.fst).Nodup := by
      rw [List.map_map]
      exact codesOf_snd_nodup root
    rw [foldl_aput_length _ _ hnd2 (by intro k _ hk; simp at hk)]
    simp only [List.length_nil, Nat.zero_add, List.length_map]
    exact codesOf_length root "" (leafChars_ne257 h257 h)

theorem C10_witness :
    (∀ (s : Int) (c : String),
      aget (getEncodedMap
        (Node.mkInt 2 (Node.mkLeaf 97 1) (Node.mkLeaf 256 1)) [] "") s = some c ↔
      aget (getDecodedMap
        (Node.mkInt 2 (Node.mkLeaf 97 1) (Node.mkLeaf 256 1)) [] "") c = some s) ∧
    (getEncodedMap (Node.mkInt 2 (Node.mkLeaf 97 1) (Node.mkLeaf 256 1)) [] "").length =
      numLeaves (Node.mkInt 2 (Node.mkLeaf 97 1) (Node.mkLeaf 256 1)) ∧
    (getDecodedMap (Node.mkInt 2 (Node.mkLeaf 97 1) (Node.mkLeaf 256 1)) [] "").length =
      numLeaves (Node.mkInt 2 (Node.mkLeaf 97 1) (Node.mkLeaf 256 1)) :=
  C10_maps_inverse [(97, 1), (256, 1)]
    (Node.mkInt 2 (Node.mkLeaf 97 1) (Node.mkLeaf 256 1))
    (by unfold SortedKeys; decide) (by decide) (by decide)

/-- C1 counterexample: the round trip fails on the empty sequence.
Compressing the empty input yields the header `"0 "` and an empty
payload (the sentinel codeword of the single-leaf tree is empty, so no
bits are written), and decompressing that output does not terminate
successfully (the decode loop reads a bit before it ever tests the
empty codeword), so it does not yield the empty sequence.  On this
trace the header count parses cleanly and the pair loop runs zero
times, so no uninitialized variable is ever read; the result does not
depend on the indeterminate-content parameter (shown at `0` and `37`). -/
theorem C1_empty_counterexample :
    compress [] = some ([48, 32], []) ∧ decompress 0 [48, 32] [] = none ∧
    decompress 37 [48, 32] [] = none := by
  decide

/-- C1 (amended): for every NONEMPTY byte sequence, decompressing the
compressed stream (header bytes plus payload bits) yields exactly the
original sequence. -/
theorem C1_roundtrip (junk : Int) (input : List Int) (hne : input ≠ [])
    (hbytes : ∀ b ∈ input, 0 ≤ b ∧ b < 256) :
    ∃ header bits, compress input = some (header, bits) ∧
      decompress junk header bits = some input := by
  have hsorted : SortedKeys (getFrequencyTable input) :=
    SortedKeys_getFrequencyTable input
  have hnd : ((getFrequencyTable input).map Prod.fst).Nodup := hsorted.nodup_keys
  have hsget : aget (getFrequencyTable input) PSEUDO_EOF = some 1 := by
    rw [getFrequencyTable_aget]
    simp
  have hsentmem : (PSEUDO_EOF, 1) ∈ getFrequencyTable input := mem_of_aget hsget
  have hkeymem : ∀ e ∈ getFrequencyTable input,
      e.1 = PSEUDO_EOF ∨ (e.1 ∈ input ∧ e.2 = (input.count e.1 : Int)) := by
    intro e he
    obtain ⟨e1, e2⟩ := e
    have hg : aget (getFrequencyTable input) e1 = some e2 :=
      aget_of_mem_nodup hnd he
    by_cases h1 : e1 = PSEUDO_EOF
    · exact Or.inl h1
    · rw [getFrequencyTable_aget, if_neg h1] at hg
      by_cases h2 : input.count e1 = 0
      · rw [if_pos h2] at hg
        exact absurd hg (by simp)
      · rw [if_neg h2] at hg
        injection hg with hg
        refine Or.inr ⟨?_, hg.symm⟩
        by_contra hmem
        exact h2 (List.count_eq_zero.mpr hmem)
  have hkeys : ∀ e ∈ getFrequencyTable input,
      ((0 ≤ e.1 ∧ e.1 < 256) ∧ 1 ≤ e.2) ∨ e.1 = PSEUDO_EOF := by
    intro e he
    rcases hkeymem e he with h1 | ⟨h1, h2⟩
    · exact Or.inr h1
    · refine Or.inl ⟨hbytes e.1 h1, ?_⟩
      rw [h2]
      have h3 : 0 < input.count e.1 := List.count_pos_iff.mpr h1
      exact_mod_cast h3
  have h257 : NOT_A_CHAR ∉ (getFrequencyTable input).map Prod.fst := by
    intro hmem
    obtain ⟨e, he, heq⟩ := List.mem_map.mp hmem
    rcases hkeys e he with ⟨⟨_, hlt⟩, _⟩ | hs
    · rw [heq] at hlt
      rw [NOT_A_CHAR] at hlt
      omega
    · rw [heq] at hs
      rw [NOT_A_CHAR, PSEUDO_EOF] at hs
      omega
  obtain ⟨b0, hb0⟩ := List.exists_mem_of_ne_nil input hne
  have hb0range := hbytes b0 hb0
  have hb0ne : b0 ≠ PSEUDO_EOF := by rw [PSEUDO_EOF]; omega
  have hb0get : aget (getFrequencyTable input) b0 = some (input.count b0 : Int) := by
    rw [getFrequencyTable_aget, if_neg hb0ne,
      if_neg (fun h0 => (List.count_eq_zero.mp h0) hb0)]
  have hb0mem : (b0, (input.count b0 : Int)) ∈ getFrequencyTable input :=
    mem_of_aget hb0get
  have hT2 : 2 ≤ (getFrequencyTable input).length := by
    match hTshape : getFrequencyTable input with
    | [] => rw [hTshape] at hsentmem; simp at hsentmem
    | [x] =>
      rw [hTshape] at hsentmem hb0mem
      simp only [List.mem_singleton] at hsentmem hb0mem
      exfalso
      have hxy := hb0mem.trans hsentmem.symm
      injection hxy with h1 _
      exact hb0ne h1
    | x :: y :: rest => simp only [List.length_cons]; omega
  have hTne : getFrequencyTable input ≠ [] := by
    intro hnil
    rw [hnil] at hT2
    simp at hT2
  obtain ⟨T', hTsplit⟩ := sorted_split256 (getFrequencyTable input) hsorted hsentmem
    (by
      intro e he
      rcases hkeys e he with ⟨⟨_, hlt⟩, _⟩ | hs
      · rw [PSEUDO_EOF]; omega
      · omega)
  have hk' : ∀ e ∈ T', (0 ≤ e.1 ∧ e.1 < 256) ∧ 1 ≤ e.2 := by
    intro e he
    have hmem2 : e ∈ getFrequencyTable input := by
      rw [hTsplit]
      exact List.mem_append.mpr (Or.inl he)
    rcases hkeys e hmem2 with h1 | h1
    · exact h1
    · exfalso
      have hlt := (List.pairwise_append.mp (hTsplit ▸ hsorted)).2.2 e he
        (PSEUDO_EOF, 1) (by simp)
      simp only at hlt
      omega
  obtain ⟨hw, hr⟩ := readFileHeader_writeFileHeader junk T' hk' (hTsplit ▸ hsorted)
  obtain ⟨root, hbuild⟩ := buildEncodingTree_some hTne
  have hint := buildEncodingTree_mkInt hT2 hbuild
  have heofkey : PSEUDO_EOF ∈ (getFrequencyTable input).map Prod.fst :=
    List.mem_map.mpr ⟨(PSEUDO_EOF, 1), hsentmem, rfl⟩
  have hall : ∀ b ∈ input, b ∈ (getFrequencyTable input).map Prod.fst ∧
      b ≠ PSEUDO_EOF := by
    intro b hb
    have hbrange := hbytes b hb
    have hbne : b ≠ PSEUDO_EOF := by rw [PSEUDO_EOF]; omega
    have hbget : aget (getFrequencyTable input) b = some (input.count b : Int) := by
      rw [getFrequencyTable_aget, if_neg hbne,
        if_neg (fun h0 => (List.count_eq_zero.mp h0) hb)]
    exact ⟨List.mem_map.mpr ⟨(b, (input.count b : Int)), mem_of_aget hbget, rfl⟩, hbne⟩
  have hdecode := decode_concat hnd h257 hbuild hint heofkey input [] hall
  have hmap : input.map (fun b => b % 256) = input := by
    rw [List.map_congr_left (fun b hb =>
      Int.emod_eq_of_lt (hbytes b hb).1 (hbytes b hb).2)]
    simp
  refine ⟨natBytes T'.length ++ [32] ++
    (T'.map (fun e => [e.1 % 256] ++ intBytes e.2 ++ [32])).flatten,
    encodeFile input root, ?_, ?_⟩
  · rw [compress, hbuild]
    dsimp only
    rw [hTsplit, hw]
  · rw [decompress, hr, ← hTsplit, hbuild]
    dsimp only
    rw [decodeFile, encodeFile_eq_join, hdecode]
    dsimp only
    rw [List.nil_append, hmap]

theorem C1_witness :
    ([97, 98] : List Int) ≠ [] ∧
    (∀ b ∈ ([97, 98] : List Int), 0 ≤ b ∧ b < 256) ∧
    ∃ header bits, compress [97, 98] = some (header, bits) ∧
      decompress 0 header bits = some [97, 98] :=
  ⟨by decide, by decide, C1_roundtrip 0 [97, 98] (by decide) (by decide)⟩
